import Mathlib

/-!
Verification development for the student distribution tool
(`src/streamlit_app.py`).

The Python program is shallowly embedded.  Notes on the embedding:

* A `Student` is one row of the uploaded table: columns `NOMBRE`, `GROUP`
  (optional passthrough), `CN`, `CS`, `CF`.
* The Python dictionary `subgrupos` is keyed by the strings built from a
  course and a slot `g ∈ 1..3` as `curso ++ "-G" ++ toString g`.  Because
  the slot number is a single digit, that key-building map is
  injective on the keys that ever occur, so the dictionary is modelled by
  a total function on pairs `(curso, g)` together with the insertion-order
  key list (`cursos`, each with slots 1, 2, 3).  A `KeyError` (an index
  into a key absent from the dictionary) corresponds exactly to a course
  string that is not in `courses`.
* Python's `list.sort(key=...)` and `sorted(...)` are stable; a stable
  sort is uniquely determined by the comparison and the input order, so
  they are modelled by `List.insertionSort` (also stable) with the same
  comparison.
* String primitives (`startswith`, `split`, lexicographic order) are
  modelled structurally on the character lists (`String.data`) so that
  everything evaluates inside the kernel; the semantics matches CPython's
  code-point-wise operations.
* The Mersenne-Twister streams (`random.seed`/`random.shuffle` and the
  pandas `random_state` generator) are deterministic functions of the
  seed.  They are modelled by an abstract seed-driven stream (`lcg` and
  the rotation-based `shuffleS`); every theorem about the assignment
  algorithm itself is stated for an arbitrary permutation-producing
  shuffle oracle, which covers the real generators.
-/

/-- One row of the uploaded table: `NOMBRE`, optional `GROUP`, and the three
track choices `CN`, `CS`, `CF` (lines 104-110 of the source). -/
structure Student where
  nombre : String
  group : String
  cn : String
  cs : String
  cf : String
deriving DecidableEq

/-- A sub-group membership list: `(NOMBRE, GROUP)` pairs in seating order
(line 140 of the source appends `(student_name, student_group)`). -/
abbrev Roster := List (String × String)

/-- The capacity table `max_students_per_group`: a Python dict from choice
value to capacity, modelled as an Option-valued map. -/
abbrev Caps := String → Option Nat

/-- A slot-number combination `(x, y, z)` for the three tracks. -/
abbrev Combo := Nat × Nat × Nat

/-- A sub-group key `(choiceValue, slotNumber)`. -/
abbrev GKey := String × Nat

/-- Line 80: `(choice_count + 2) // 3`, i.e. `ceil(choice_count / 3)`. -/
def ceil3 (n : Nat) : Nat := (n + 2) / 3

/-- Line 78: `(data[column] == choice).sum()` — the number of rows whose
given column equals `v`. -/
def countCol (col : Student → String) (data : List Student) (v : String) : Nat :=
  data.countP fun s => decide (col s = v)

/-- One Python dict assignment `max_students_per_group[choice] = ...`. -/
def capsUpdate (caps : Caps) (k : String) (v : Nat) : Caps :=
  fun x => if x = k then some v else caps x

/-- Lines 75-81 for a single column: for every distinct value of the column
store `ceil3` of its count.  `dedup` models `pandas.unique` (iteration
order over distinct values does not affect the resulting dict). -/
def buildColumn (col : Student → String) (data : List Student) (caps : Caps) : Caps :=
  ((data.map col).dedup).foldl
    (fun acc choice => capsUpdate acc choice (ceil3 (countCol col data choice))) caps

/-- Lines 73-81: the capacity table, built for the columns `CN`, `CS`, `CF`
in that order (later columns overwrite equal choice strings). -/
def max_students_per_group (data : List Student) : Caps :=
  buildColumn (fun s => s.cf) data
    (buildColumn (fun s => s.cs) data
      (buildColumn (fun s => s.cn) data fun _ => none))

/-- Code-point lexicographic strict order on character lists, as CPython
compares strings. -/
def strListLt : List Char → List Char → Bool
  | [], [] => false
  | [], _ :: _ => true
  | _ :: _, [] => false
  | a :: as, b :: bs =>
    if a.toNat < b.toNat then true
    else if b.toNat < a.toNat then false
    else strListLt as bs

/-- String `≤` used by `sorted(...)` on line 86. -/
def strLe (a b : String) : Bool := !(strListLt b.data a.data)

/-- Line 86: `sorted(list(data['CN'].unique()) + list(data['CS'].unique()) +
list(data['CF'].unique()))`, with the final `dedup` modelling that the dict
of line 88 keeps one entry per distinct course string. -/
def cursos (data : List Student) : List String :=
  (List.insertionSort (fun a b => strLe a b = true)
    ((data.map fun s => s.cn).dedup ++ (data.map fun s => s.cs).dedup ++
      (data.map fun s => s.cf).dedup)).dedup

/-- The mutable dictionary `subgrupos`: its (fixed) key courses and the
membership lists. -/
structure SubState where
  courses : List String
  mem : String → Nat → Roster

/-- Lines 84-88: every course gets empty sub-groups G1, G2, G3. -/
def subgrupos_init (data : List Student) : SubState :=
  ⟨cursos data, fun _ _ => []⟩

/-- The dict keys in insertion order: for each course, slots 1, 2, 3. -/
def keyList (courses : List String) : List GKey :=
  courses.flatMap fun c => [(c, 1), (c, 2), (c, 3)]

/-- Lines 113-116: all `(x, y, z)` with `x, y, z ∈ {1,2,3}` and
`x ≠ y and y ≠ z and x ≠ z`, in Python's comprehension order. -/
def posibles_g : List Combo :=
  (List.range' 1 3).flatMap fun x =>
    (List.range' 1 3).flatMap fun y =>
      (List.range' 1 3).filterMap fun z =>
        if x ≠ y ∧ y ≠ z ∧ x ≠ z then some (x, y, z) else none

/-- The dict key string of course `c` and slot `g` (lines 88, 129-133). -/
def keyStr (c : String) (g : Nat) : String := c ++ "-G" ++ toString g

/-- Python `gk.split('-')[0]` (line 136): the part before the first `'-'`
(the whole string when there is none). -/
def dashHead (s : String) : String :=
  String.mk (s.data.takeWhile fun ch => decide (ch ≠ '-'))

/-- Python `split('-G')` on the character list: greedy left-to-right split
at every occurrence of the two-character separator `-G`. -/
def splitDashG : List Char → List (List Char)
  | [] => [[]]
  | '-' :: 'G' :: rest => [] :: splitDashG rest
  | c :: rest =>
    match splitDashG rest with
    | [] => [[c]]
    | h :: t => (c :: h) :: t

/-- Line 204: `group_name.split('-G')[1]` for the key of course `c`, slot
`g`. -/
def gNum (c : String) (g : Nat) : String :=
  String.mk ((splitDashG (keyStr c g).data).getD 1 [])

/-- Line 136: `max_students_per_group.get(gk.split('-')[0], 21)`. -/
def capFor (caps : Caps) (c : String) (g : Nat) : Nat :=
  (caps (dashHead (keyStr c g))).getD 21

/-- Lines 122-124: the sort key — the sum of the current occupancies of the
three sub-groups the combination would use. -/
def comboSum (st : SubState) (s : Student) : Combo → Nat
  | (x, y, z) =>
    (st.mem s.cn x).length + (st.mem s.cs y).length + (st.mem s.cf z).length

/-- Line 136: all three target sub-groups strictly below capacity. -/
def comboFits (caps : Caps) (st : SubState) (s : Student) : Combo → Bool
  | (x, y, z) =>
    decide ((st.mem s.cn x).length < capFor caps s.cn x) &&
    decide ((st.mem s.cs y).length < capFor caps s.cs y) &&
    decide ((st.mem s.cf z).length < capFor caps s.cf z)

/-- One `subgrupos[gk].append(...)` (line 140). -/
def appendTo (st : SubState) (c : String) (g : Nat) (e : String × String) : SubState :=
  { st with
    mem := fun c2 g2 => if c2 = c ∧ g2 = g then st.mem c2 g2 ++ [e] else st.mem c2 g2 }

/-- Lines 138-140: append the student to the three sub-groups of the chosen
combination, CN then CS then CF. -/
def seat (st : SubState) (s : Student) : Combo → SubState
  | (x, y, z) =>
    appendTo (appendTo (appendTo st s.cn x (s.nombre, s.group)) s.cs y (s.nombre, s.group))
      s.cf z (s.nombre, s.group)

/-- Line 122: the stable sort of the (already shuffled) combinations by
current occupancy sum. -/
def sortedCombos (st : SubState) (s : Student) (l : List Combo) : List Combo :=
  List.insertionSort (fun a b => comboSum st s a ≤ comboSum st s b) l

/-- All three of the student's choices are dict courses; when this fails the
occupancy lookups of lines 122-124 raise `KeyError`, which the `except` of
line 144 turns into an unchanged state and `False`. -/
def hayCursos (st : SubState) (s : Student) : Prop :=
  s.cn ∈ st.courses ∧ s.cs ∈ st.courses ∧ s.cf ∈ st.courses

instance (st : SubState) (s : Student) : Decidable (hayCursos st s) :=
  inferInstanceAs (Decidable (_ ∈ _ ∧ _ ∈ _ ∧ _ ∈ _))

/-- Lines 98-146, one student: sort the shuffled combinations, take the
first that fits, seat the student there (returning the chosen combination,
whose presence is the `True`/`False` of the source), with the `except`
path leaving the state unchanged.  The shuffled combination list is
supplied by the caller (the shuffle oracle). -/
def asignar_subgrupos (caps : Caps) (st : SubState) (s : Student) (shuffled : List Combo) :
    SubState × Option Combo :=
  if hayCursos st s then
    match (sortedCombos st s shuffled).find? (comboFits caps st s) with
    | some cb => (seat st s cb, some cb)
    | none => (st, none)
  else (st, none)

/-- Lines 149-152: process the students in order, one result per student;
`sh i` is the shuffled combination list used for the `i`-th student. -/
def procesar (caps : Caps) : SubState → List Student → (Nat → List Combo) → Nat →
    List (Option Combo) × SubState
  | st, [], _, _ => ([], st)
  | st, s :: rest, sh, i =>
    let p := asignar_subgrupos caps st s (sh i)
    let q := procesar caps p.1 rest sh (i + 1)
    (p.2 :: q.1, q.2)

/-- The trace of dictionary states: before each student and after the last
one. -/
def statesOf (caps : Caps) : SubState → List Student → (Nat → List Combo) → Nat →
    List SubState
  | st, [], _, _ => [st]
  | st, s :: rest, sh, i =>
    st :: statesOf caps (asignar_subgrupos caps st s (sh i)).1 rest sh (i + 1)

/-- Each student paired with the combination chosen for them (if any). -/
def outcomesOf (caps : Caps) : SubState → List Student → (Nat → List Combo) → Nat →
    List (Student × Option Combo)
  | _, [], _, _ => []
  | st, s :: rest, sh, i =>
    let p := asignar_subgrupos caps st s (sh i)
    (s, p.2) :: outcomesOf caps p.1 rest sh (i + 1)

/-- Abstract deterministic pseudo-random step (the concrete generator is the
C library's Mersenne Twister; only determinism-in-the-seed and
permutation-production are relied on by any theorem). -/
def lcg (x : Nat) : Nat := (1103515245 * x + 12345) % 2147483648

/-- Iterated generator step. -/
def lcgIter : Nat → Nat → Nat
  | 0, x => x
  | n + 1, x => lcgIter n (lcg x)

/-- Fuel-indexed seed-driven shuffle: rotate by the next draw, fix the new
head, continue on the tail.  Returns the shuffled list and the advanced
stream state; consumes exactly one draw per element. -/
def shuffleGo {α : Type} : Nat → Nat → List α → List α × Nat
  | _, r, [] => ([], r)
  | 0, r, l => (l, r)
  | fuel + 1, r, l =>
    match l.rotate (r % l.length) with
    | [] => ([], r)
    | b :: tail =>
      let p := shuffleGo fuel (lcg r) tail
      (b :: p.1, p.2)

/-- Seed-driven shuffle of a whole list (model of `random.shuffle` and of
the pandas `sample(frac=1, random_state=seed)` permutation). -/
def shuffleS {α : Type} (r : Nat) (l : List α) : List α × Nat :=
  shuffleGo l.length r l

/-- The per-student combination shuffles of line 119: the `i`-th student's
shuffle reads the stream seeded once at `seed` (line 91) and advanced by
the `6 * i` draws of the previous students' shuffles. -/
def pyShuffles (seed : Nat) (i : Nat) : List Combo :=
  (shuffleS (lcgIter (6 * i) seed) posibles_g).1

/-- Lines 90-152: the whole engine run.  The batch order is produced by the
pandas generator seeded with `seed` (line 92, a generator separate from the
`random` module's stream, which line 91 seeds with the same value). -/
def runSeeded (data : List Student) (seed : Nat) : List (Option Combo) × SubState :=
  procesar (max_students_per_group data) (subgrupos_init data)
    (shuffleS seed data).1 (pyShuffles seed) 0

/-- The engine with the per-student stream threaded explicitly: each student
shuffles `posibles_g` with the current stream state and hands the advanced
state to the next student. -/
def procesarT (caps : Caps) : SubState → Nat → List Student →
    List (Option Combo) × SubState × Nat
  | st, r, [] => ([], st, r)
  | st, r, s :: rest =>
    let sp := shuffleS r posibles_g
    let p := asignar_subgrupos caps st s sp.1
    let q := procesarT caps p.1 sp.2 rest
    (p.2 :: q.1, q.2)

/-- Modelled from the spec: a run in which one single continuing stream,
seeded exactly once with the given seed, drives first the batch-order
shuffle and then every per-student combination shuffle ("expose a single
seeded pseudo-random generator instance ... pass it by reference/handle to
both the batch-order shuffle step and the per-student combination shuffle
step"). -/
def runSingleStream (data : List Student) (seed : Nat) : List (Option Combo) × SubState :=
  let b := shuffleS seed data
  let q := procesarT (max_students_per_group data) (subgrupos_init data) b.2 b.1
  (q.1, q.2.1)

/-- One row of the summary file (lines 215-224). -/
structure Row where
  nombre : String
  group : String
  cnEleccion : String
  cnGrupo : String
  csEleccion : String
  csGrupo : String
  cfEleccion : String
  cfGrupo : String
deriving DecidableEq

/-- Python `group_name.startswith(choice)`. -/
def startsWith (p s : String) : Bool := p.data.isPrefixOf s.data

/-- Lines 193-196: a row with the three group fields still empty. -/
def emptyRow (s : Student) : Row :=
  ⟨s.nombre, s.group, s.cn, "", s.cs, "", s.cf, ""⟩

/-- Lines 199-212, one dict entry: if the student's name occurs in the
sub-group, write the `split('-G')[1]` slot digits into the first of
CN/CS/CF whose recorded choice is a string-prefix of the key. -/
def scanStep (st : SubState) (s : Student) (acc : Row) (k : GKey) : Row :=
  if s.nombre ∈ (st.mem k.1 k.2).map Prod.fst then
    let gn := gNum k.1 k.2
    if startsWith s.cn (keyStr k.1 k.2) then { acc with cnGrupo := gn }
    else if startsWith s.cs (keyStr k.1 k.2) then { acc with csGrupo := gn }
    else if startsWith s.cf (keyStr k.1 k.2) then { acc with cfGrupo := gn }
    else acc
  else acc

/-- Lines 184-224: the summary row of one student — scan all dict entries in
insertion order, later matches overwriting earlier ones. -/
def rowFor (st : SubState) (s : Student) : Row :=
  (keyList st.courses).foldl (scanStep st s) (emptyRow s)

/-- The summary view: one row per student of the original data, in order. -/
def summaryView (data : List Student) (st : SubState) : List Row :=
  data.map (rowFor st)

/-- Lines 166-171: one table per non-empty sub-group, in dict order. -/
def rosterView (st : SubState) : List (GKey × Roster) :=
  (keyList st.courses).filterMap fun k =>
    if st.mem k.1 k.2 = [] then none else some (k, st.mem k.1 k.2)

/-- Line 158: `sum(results)`. -/
def seatedCount (rs : List (Option Combo)) : Nat :=
  rs.countP fun o => o.isSome

/-- The full output surfaced to the collaborators: summary view, roster
view, seated count, total count. -/
def runFull (data : List Student) (seed : Nat) :
    List Row × List (GKey × Roster) × Nat × Nat :=
  let p := runSeeded data seed
  (summaryView data p.2, rosterView p.2, seatedCount p.1, data.length)

/-- The three sub-group keys a combination seats the student into (the
`grupo_keys` of lines 129-133), in CN, CS, CF order. -/
def seatKeys (s : Student) (cb : Combo) : List GKey :=
  [(s.cn, cb.1), (s.cs, cb.2.1), (s.cf, cb.2.2)]

/-- The entries one seated student contributes to sub-group `(c, g)`: one
`(NOMBRE, GROUP)` pair per occurrence of `(c, g)` among the student's
three target keys. -/
def rosterAdd (s : Student) (cb : Combo) (c : String) (g : Nat) : Roster :=
  ((seatKeys s cb).filter fun k => decide (k = (c, g))).map fun _ => (s.nombre, s.group)

/-- All entries a sequence of per-student outcomes contributes to sub-group
`(c, g)`, in processing order. -/
def addedTo (c : String) (g : Nat) : List (Student × Option Combo) → Roster
  | [] => []
  | (s, some cb) :: rest => rosterAdd s cb c g ++ addedTo c g rest
  | (_, none) :: rest => addedTo c g rest

/-- A roster extends another by appending only (previously seated entries
are never removed, reordered or overwritten). -/
def growsFrom (a b : Roster) : Prop := ∃ t, b = a ++ t

/-- Total number of occupied seats: the sum of the lengths of all
sub-group membership lists, over the dict keys. -/
def sumLens (st : SubState) : Nat :=
  ((keyList st.courses).map fun k => (st.mem k.1 k.2).length).sum

/-- The names of the students whose processing takes the exception path
(the dict courses never change during a run, so this is independent of
the processing position). -/
def erroredNames (st : SubState) (students : List Student) : List String :=
  (students.filter fun s => !(decide (hayCursos st s))).map fun s => s.nombre

/-- Last key (in scan order) satisfying a predicate, starting from a
default — the "later matches overwrite earlier ones" accumulator of the
summary scan. -/
def lastSetFrom (p : GKey → Bool) (a : Option GKey) (keys : List GKey) : Option GKey :=
  keys.foldl (fun acc k => if p k then some k else acc) a

/-- The summary scan writes the CN field at key `k`. -/
def mCn (st : SubState) (s : Student) (k : GKey) : Bool :=
  decide (s.nombre ∈ (st.mem k.1 k.2).map Prod.fst) && startsWith s.cn (keyStr k.1 k.2)

/-- The summary scan writes the CS field at key `k`. -/
def mCs (st : SubState) (s : Student) (k : GKey) : Bool :=
  decide (s.nombre ∈ (st.mem k.1 k.2).map Prod.fst) && !startsWith s.cn (keyStr k.1 k.2) &&
    startsWith s.cs (keyStr k.1 k.2)

/-- The summary scan writes the CF field at key `k`. -/
def mCf (st : SubState) (s : Student) (k : GKey) : Bool :=
  decide (s.nombre ∈ (st.mem k.1 k.2).map Prod.fst) && !startsWith s.cn (keyStr k.1 k.2) &&
    !startsWith s.cs (keyStr k.1 k.2) && startsWith s.cf (keyStr k.1 k.2)

/-- A shuffle oracle that happens to return the combinations unshuffled (a
legal permutation, used to instantiate oracle-quantified statements). -/
def shId (_ : Nat) : List Combo := posibles_g

/-- A student whose every choice value contains a dash. -/
def stAB : Student := ⟨"N", "", "A-B", "A-B", "A-B"⟩

/-- Ten copies of `stAB`: the capacity table says `ceil(10/3) = 4` per
sub-group of choice `A-B`, but the guard of line 136 looks up key `A`. -/
def dataAB : List Student := List.replicate 10 stAB

/-- Five students: `X` is chosen by four students in column CN and by one
student in column CF, so five distinct students choose `X` overall. -/
def dataX : List Student :=
  [⟨"a", "", "X", "S", "F"⟩, ⟨"b", "", "X", "S", "F"⟩, ⟨"c", "", "X", "S", "F"⟩,
   ⟨"d", "", "X", "S", "F"⟩, ⟨"e", "", "A", "S", "X"⟩]

/-- A student whose CN choice `CN1` is a string-prefix of the CS choice
`CN11`, so the summary's `startswith` matching misfires. -/
def s8 : Student := ⟨"P", "", "CN1", "CN11", "CF1"⟩

/-- Single-student batch for the summary counterexample. -/
def data8 : List Student := [s8]

/-- A single clean student: all occupancy sums are tied, so the combination
the engine picks is decided purely by the shuffle order. -/
def d9 : List Student := [⟨"P", "", "C1", "C2", "C3"⟩]

/-- A state whose only dict course is `A` (as produced by a batch whose
every choice is `A`). -/
def stA : SubState := ⟨["A"], fun _ _ => []⟩

/-- A capacity table making every group of choice `A` full from the start. -/
def capsZero : Caps := fun _ => some 0

/-- A student that raises `KeyError` against `stA` (choice `Z` is not a
dict course). -/
def sBad : Student := ⟨"B", "", "Z", "Z", "Z"⟩

/-- A student that is processed without error against `stA` but cannot be
seated under `capsZero`. -/
def sCap : Student := ⟨"B", "", "A", "A", "A"⟩

/-- Two clean students (distinct names, per-student distinct choices, no
prefix collisions among the courses, no dashes). -/
def dataW : List Student :=
  [⟨"P", "11A", "C1", "C2", "C3"⟩, ⟨"Q", "11B", "D1", "D2", "D3"⟩]

theorem posibles_g_eq :
    posibles_g = [(1,2,3), (1,3,2), (2,1,3), (2,3,1), (3,1,2), (3,2,1)] := by
  decide

theorem mem_posibles_iff (cb : Combo) :
    cb ∈ posibles_g ↔ [cb.1, cb.2.1, cb.2.2].Perm [1, 2, 3] := by
  obtain ⟨x, y, z⟩ := cb
  constructor
  · intro h
    rw [posibles_g_eq] at h
    fin_cases h <;> decide
  · intro h
    have hx : x ∈ [1, 2, 3] := h.subset (by simp)
    have hy : y ∈ [1, 2, 3] := h.subset (by simp)
    have hz : z ∈ [1, 2, 3] := h.subset (by simp)
    simp only [List.mem_cons, List.mem_singleton, List.not_mem_nil, or_false] at hx hy hz
    rcases hx with rfl | rfl | rfl <;> rcases hy with rfl | rfl | rfl <;>
      rcases hz with rfl | rfl | rfl <;> revert h <;> decide

theorem find?_split {α : Type} {p : α → Bool} :
    ∀ {l : List α} {a : α}, l.find? p = some a →
      p a = true ∧ ∃ l1 l2, l = l1 ++ a :: l2 ∧ ∀ x ∈ l1, p x = false := by
  intro l
  induction l with
  | nil => intro a h; simp [List.find?] at h
  | cons b t ih =>
    intro a h
    by_cases hb : p b
    · rw [List.find?_cons_of_pos _ hb] at h
      obtain rfl : b = a := by injection h
      exact ⟨hb, [], t, rfl, by simp⟩
    · rw [List.find?_cons_of_neg _ (by simpa using hb)] at h
      obtain ⟨hpa, l1, l2, rfl, hl1⟩ := ih h
      refine ⟨hpa, b :: l1, l2, rfl, ?_⟩
      intro x hx
      rcases List.mem_cons.1 hx with rfl | hx
      · simpa using hb
      · exact hl1 x hx

theorem asignar_spec (caps : Caps) (st : SubState) (s : Student) (l : List Combo) :
    asignar_subgrupos caps st s l = (st, none) ∨
      ∃ cb, asignar_subgrupos caps st s l = (seat st s cb, some cb) ∧
        (sortedCombos st s l).find? (comboFits caps st s) = some cb ∧ hayCursos st s := by
  by_cases h : hayCursos st s
  · cases hf : (sortedCombos st s l).find? (comboFits caps st s) with
    | none =>
      left
      unfold asignar_subgrupos
      rw [if_pos h, hf]
    | some cb =>
      right
      refine ⟨cb, ?_, rfl, h⟩
      unfold asignar_subgrupos
      rw [if_pos h, hf]
  · left
    unfold asignar_subgrupos
    rw [if_neg h]

theorem asignar_none (caps : Caps) (st : SubState) (s : Student) (l : List Combo)
    (h : (asignar_subgrupos caps st s l).2 = none) :
    (asignar_subgrupos caps st s l).1 = st := by
  rcases asignar_spec caps st s l with h2 | ⟨cb, h2, _, _⟩
  · rw [h2]
  · rw [h2] at h ⊢; simp at h

theorem asignar_some (caps : Caps) (st : SubState) (s : Student) (l : List Combo) (cb : Combo)
    (h : (asignar_subgrupos caps st s l).2 = some cb) :
    (asignar_subgrupos caps st s l).1 = seat st s cb ∧
      (sortedCombos st s l).find? (comboFits caps st s) = some cb ∧ hayCursos st s := by
  rcases asignar_spec caps st s l with h2 | ⟨cb2, h2, hf, hc⟩
  · rw [h2] at h; simp at h
  · rw [h2] at h ⊢
    have hcbeq : cb2 = cb := by simpa using h
    subst hcbeq
    exact ⟨rfl, hf, hc⟩

theorem seat_courses (st : SubState) (s : Student) (cb : Combo) :
    (seat st s cb).courses = st.courses := by
  obtain ⟨x, y, z⟩ := cb; rfl

theorem asignar_courses (caps : Caps) (st : SubState) (s : Student) (l : List Combo) :
    (asignar_subgrupos caps st s l).1.courses = st.courses := by
  rcases asignar_spec caps st s l with h | ⟨cb, h, _, _⟩
  · rw [h]
  · rw [h]; exact seat_courses st s cb

theorem procesar_courses (caps : Caps) :
    ∀ (students : List Student) (st : SubState) (sh : Nat → List Combo) (i : Nat),
      (procesar caps st students sh i).2.courses = st.courses := by
  intro students
  induction students with
  | nil => intro st sh i; rfl
  | cons s rest ih =>
    intro st sh i
    show (procesar caps (asignar_subgrupos caps st s (sh i)).1 rest sh (i + 1)).2.courses = _
    rw [ih, asignar_courses]

theorem appendTo_mem (st : SubState) (c : String) (g : Nat) (e : String × String)
    (c2 : String) (g2 : Nat) :
    (appendTo st c g e).mem c2 g2 =
      if c2 = c ∧ g2 = g then st.mem c2 g2 ++ [e] else st.mem c2 g2 := rfl

theorem foldAppend_mem (e : String × String) :
    ∀ (ks : List GKey) (st : SubState) (c : String) (g : Nat),
      ((ks.foldl (fun st2 k => appendTo st2 k.1 k.2 e) st).mem c g) =
        st.mem c g ++ ((ks.filter fun k => decide (k = (c, g))).map fun _ => e) := by
  intro ks
  induction ks with
  | nil => intro st c g; simp
  | cons k ks ih =>
    intro st c g
    show ((ks.foldl _ (appendTo st k.1 k.2 e)).mem c g) = _
    rw [ih, appendTo_mem]
    by_cases h : k = (c, g)
    · have hc : c = k.1 ∧ g = k.2 := by
        obtain ⟨h1, h2⟩ := Prod.ext_iff.1 h
        exact ⟨h1.symm, h2.symm⟩
      rw [if_pos hc]
      simp [List.filter_cons, h, List.append_assoc]
    · have hc : ¬(c = k.1 ∧ g = k.2) := fun hcg =>
        h (Prod.ext_iff.2 ⟨hcg.1.symm, hcg.2.symm⟩)
      rw [if_neg hc]
      simp [List.filter_cons, h]

theorem seat_eq_fold (st : SubState) (s : Student) (cb : Combo) :
    seat st s cb =
      (seatKeys s cb).foldl (fun st2 k => appendTo st2 k.1 k.2 (s.nombre, s.group)) st := by
  obtain ⟨x, y, z⟩ := cb; rfl

theorem seat_mem (st : SubState) (s : Student) (cb : Combo) (c : String) (g : Nat) :
    (seat st s cb).mem c g = st.mem c g ++ rosterAdd s cb c g := by
  rw [seat_eq_fold, foldAppend_mem]; rfl

theorem procesar_fst (caps : Caps) :
    ∀ (students : List Student) (st : SubState) (sh : Nat → List Combo) (i : Nat),
      (procesar caps st students sh i).1 =
        (outcomesOf caps st students sh i).map Prod.snd := by
  intro students
  induction students with
  | nil => intro st sh i; rfl
  | cons s rest ih =>
    intro st sh i
    show (asignar_subgrupos caps st s (sh i)).2 ::
        (procesar caps (asignar_subgrupos caps st s (sh i)).1 rest sh (i + 1)).1 = _
    rw [ih]; rfl

theorem outcomes_fst (caps : Caps) :
    ∀ (students : List Student) (st : SubState) (sh : Nat → List Combo) (i : Nat),
      (outcomesOf caps st students sh i).map Prod.fst = students := by
  intro students
  induction students with
  | nil => intro st sh i; rfl
  | cons s rest ih =>
    intro st sh i
    show s :: (outcomesOf caps (asignar_subgrupos caps st s (sh i)).1 rest sh (i + 1)).map Prod.fst = _
    rw [ih]

theorem procesar_mem (caps : Caps) :
    ∀ (students : List Student) (st : SubState) (sh : Nat → List Combo) (i : Nat)
      (c : String) (g : Nat),
      (procesar caps st students sh i).2.mem c g =
        st.mem c g ++ addedTo c g (outcomesOf caps st students sh i) := by
  intro students
  induction students with
  | nil => intro st sh i c g; simp [procesar, outcomesOf, addedTo]
  | cons s rest ih =>
    intro st sh i c g
    show (procesar caps (asignar_subgrupos caps st s (sh i)).1 rest sh (i + 1)).2.mem c g = _
    rw [ih]
    rcases asignar_spec caps st s (sh i) with h | ⟨cb, h, _, _⟩
    · rw [h]
      show st.mem c g ++ addedTo c g _ = _
      have hout : outcomesOf caps st (s :: rest) sh i =
          (s, none) :: outcomesOf caps st rest sh (i + 1) := by
        show (s, (asignar_subgrupos caps st s (sh i)).2) :: _ = _
        rw [h]
      rw [hout, addedTo]
    · rw [h]
      show (seat st s cb).mem c g ++ addedTo c g _ = _
      rw [seat_mem]
      have hout : outcomesOf caps st (s :: rest) sh i =
          (s, some cb) :: outcomesOf caps (seat st s cb) rest sh (i + 1) := by
        show (s, (asignar_subgrupos caps st s (sh i)).2) ::
          outcomesOf caps (asignar_subgrupos caps st s (sh i)).1 rest sh (i + 1) = _
        rw [h]
      rw [hout, addedTo, List.append_assoc]

theorem procesar_shift (caps : Caps) :
    ∀ (students : List Student) (st : SubState) (sh : Nat → List Combo) (i : Nat),
      procesar caps st students sh (i + 1) =
        procesar caps st students (fun j => sh (j + 1)) i := by
  intro students
  induction students with
  | nil => intro st sh i; rfl
  | cons s rest ih =>
    intro st sh i
    show (_, _) = (_, _)
    rw [ih]

theorem final_mem_statesOf (caps : Caps) :
    ∀ (students : List Student) (st : SubState) (sh : Nat → List Combo) (i : Nat),
      (procesar caps st students sh i).2 ∈ statesOf caps st students sh i := by
  intro students
  induction students with
  | nil => intro st sh i; simp [procesar, statesOf]
  | cons s rest ih =>
    intro st sh i
    show (procesar caps (asignar_subgrupos caps st s (sh i)).1 rest sh (i + 1)).2 ∈
      st :: statesOf caps (asignar_subgrupos caps st s (sh i)).1 rest sh (i + 1)
    exact List.mem_cons_of_mem st (ih _ _ _)

theorem mem_addedTo_names (c : String) (g : Nat) (n : String) :
    ∀ (outs : List (Student × Option Combo)),
      (n ∈ (addedTo c g outs).map Prod.fst ↔
        ∃ s cb, (s, some cb) ∈ outs ∧ s.nombre = n ∧ (c, g) ∈ seatKeys s cb) := by
  intro outs
  induction outs with
  | nil => simp [addedTo]
  | cons p rest ih =>
    obtain ⟨s, o⟩ := p
    cases o with
    | none =>
      rw [addedTo]
      rw [ih]
      constructor
      · rintro ⟨s2, cb2, hmem, hn, hk⟩
        exact ⟨s2, cb2, List.mem_cons_of_mem _ hmem, hn, hk⟩
      · rintro ⟨s2, cb2, hmem, hn, hk⟩
        rcases List.mem_cons.1 hmem with heq | hmem2
        · exact absurd (congrArg Prod.snd heq) (by simp)
        · exact ⟨s2, cb2, hmem2, hn, hk⟩
    | some cb =>
      rw [addedTo]
      rw [List.map_append, List.mem_append, ih]
      constructor
      · rintro (hin | ⟨s2, cb2, hmem, hn, hk⟩)
        · refine ⟨s, cb, List.mem_cons_self _ _, ?_⟩
          unfold rosterAdd at hin
          rw [List.map_map] at hin
          obtain ⟨k, hk, hn⟩ := List.mem_map.1 hin
          have hkmem := List.mem_of_mem_filter hk
          have hkeq : k = (c, g) := by
            have := List.of_mem_filter hk
            simpa using this
          subst hkeq
          exact ⟨hn.symm ▸ rfl, hkmem⟩
        · exact ⟨s2, cb2, List.mem_cons_of_mem _ hmem, hn, hk⟩
      · rintro ⟨s2, cb2, hmem, hn, hk⟩
        rcases List.mem_cons.1 hmem with heq | hmem2
        · left
          have hs : s2 = s := congrArg Prod.fst heq
          have hcb : cb2 = cb := by
            have := congrArg Prod.snd heq
            simpa using this
          subst hs; subst hcb
          unfold rosterAdd
          rw [List.map_map]
          refine List.mem_map.2 ⟨(c, g), ?_, hn⟩
          exact List.mem_filter.2 ⟨hk, by simp⟩
        · right; exact ⟨s2, cb2, hmem2, hn, hk⟩

theorem sortedCombos_perm (st : SubState) (s : Student) (l : List Combo) :
    (sortedCombos st s l).Perm l :=
  List.perm_insertionSort _ l

theorem sortedCombos_sorted (st : SubState) (s : Student) (l : List Combo) :
    List.Sorted (fun a b => comboSum st s a ≤ comboSum st s b) (sortedCombos st s l) := by
  haveI : IsTotal Combo (fun a b => comboSum st s a ≤ comboSum st s b) :=
    ⟨fun a b => Nat.le_total _ _⟩
  haveI : IsTrans Combo (fun a b => comboSum st s a ≤ comboSum st s b) :=
    ⟨fun _ _ _ h1 h2 => Nat.le_trans h1 h2⟩
  exact List.sorted_insertionSort _ l

theorem find?_sorted_min {p : Combo → Bool} {st : SubState} {s : Student}
    {l : List Combo} {cb : Combo}
    (hs : List.Sorted (fun a b => comboSum st s a ≤ comboSum st s b) l)
    (h : l.find? p = some cb) :
    ∀ d ∈ l, p d = true → comboSum st s cb ≤ comboSum st s d := by
  obtain ⟨hp, l1, l2, rfl, hl1⟩ := find?_split h
  intro d hd hpd
  rcases List.mem_append.1 hd with hd1 | hd2
  · exact absurd hpd (by simp [hl1 d hd1])
  · rcases List.mem_cons.1 hd2 with rfl | hd3
    · exact Nat.le_refl _
    · have hsub : List.Sorted (fun a b => comboSum st s a ≤ comboSum st s b) (cb :: l2) :=
        hs.sublist (List.sublist_append_right l1 (cb :: l2))
      exact (List.sorted_cons.1 hsub).1 d hd3

theorem outcomes_some (caps : Caps) :
    ∀ (students : List Student) (st : SubState) (sh : Nat → List Combo) (i : Nat),
      (∀ j, (sh j).Perm posibles_g) →
      ∀ p ∈ outcomesOf caps st students sh i, ∀ cb, p.2 = some cb →
        cb ∈ posibles_g ∧
          (p.1.cn ∈ st.courses ∧ p.1.cs ∈ st.courses ∧ p.1.cf ∈ st.courses) := by
  intro students
  induction students with
  | nil => intro st sh i _ p hp; simp [outcomesOf] at hp
  | cons s rest ih =>
    intro st sh i hsh p hp
    have hp2 : p ∈ (s, (asignar_subgrupos caps st s (sh i)).2) ::
        outcomesOf caps (asignar_subgrupos caps st s (sh i)).1 rest sh (i + 1) := hp
    rcases List.mem_cons.1 hp2 with rfl | htail
    · intro cb hcb
      simp only at hcb
      rcases asignar_spec caps st s (sh i) with h | ⟨cb2, h, hf, hc⟩
      · rw [h] at hcb; exact absurd hcb (by simp)
      · rw [h] at hcb
        have hcbeq : cb2 = cb := by simpa using hcb
        have hmem : cb ∈ sortedCombos st s (sh i) :=
          hcbeq ▸ List.mem_of_find?_eq_some hf
        have hperm : (sortedCombos st s (sh i)).Perm posibles_g :=
          (List.perm_insertionSort _ _).trans (hsh i)
        exact ⟨hperm.subset hmem, hc⟩
    · intro cb hcb
      have := ih (asignar_subgrupos caps st s (sh i)).1 sh (i + 1) hsh p htail cb hcb
      rw [asignar_courses] at this
      exact this

theorem comboFits_iff (caps : Caps) (st : SubState) (s : Student) (x y z : Nat) :
    comboFits caps st s (x, y, z) = true ↔
      (st.mem s.cn x).length < capFor caps s.cn x ∧
      (st.mem s.cs y).length < capFor caps s.cs y ∧
      (st.mem s.cf z).length < capFor caps s.cf z := by
  simp [comboFits, Bool.and_eq_true, decide_eq_true_eq, and_assoc]

theorem filter_eq_length_of_nodup {α : Type} [DecidableEq α] :
    ∀ {l : List α}, l.Nodup → ∀ (a : α),
      ((l.filter fun k => decide (k = a)).length) = if a ∈ l then 1 else 0 := by
  intro l
  induction l with
  | nil => intro _ a; simp
  | cons b t ih =>
    intro hn a
    obtain ⟨hb, ht⟩ := List.nodup_cons.1 hn
    by_cases hba : b = a
    · subst hba
      rw [List.filter_cons_of_pos (by simp)]
      simp [ih ht b, hb]
    · rw [List.filter_cons_of_neg (by simp [hba])]
      rw [ih ht a]
      have hab : a ≠ b := fun h2 => hba h2.symm
      by_cases hat : a ∈ t
      · simp [hat, List.mem_cons]
      · simp [hat, List.mem_cons, hab]

theorem seatKeys_nodup (s : Student) (cb : Combo) (h : cb ∈ posibles_g) :
    (seatKeys s cb).Nodup := by
  obtain ⟨x, y, z⟩ := cb
  have hd : x ≠ y ∧ y ≠ z ∧ x ≠ z := by
    have e : posibles_g = [(1,2,3), (1,3,2), (2,1,3), (2,3,1), (3,1,2), (3,2,1)] := by decide
    rw [e] at h
    fin_cases h <;> decide
  obtain ⟨hxy, hyz, hxz⟩ := hd
  show List.Nodup [(s.cn, x), (s.cs, y), (s.cf, z)]
  simp only [List.nodup_cons, List.mem_cons, List.mem_singleton, List.not_mem_nil,
    or_false, List.nodup_nil, and_true]
  refine ⟨?_, ?_⟩
  · rintro (he | he)
    · exact hxy (congrArg Prod.snd he)
    · exact hxz (congrArg Prod.snd he)
  · exact ⟨fun he => hyz (congrArg Prod.snd he), not_false⟩

theorem rosterAdd_length (s : Student) (cb : Combo) (c : String) (g : Nat)
    (h : cb ∈ posibles_g) :
    (rosterAdd s cb c g).length = if (c, g) ∈ seatKeys s cb then 1 else 0 := by
  unfold rosterAdd
  rw [List.length_map]
  convert filter_eq_length_of_nodup (seatKeys_nodup s cb h) (c, g) using 2

theorem takeWhile_all_append (p : Char → Bool) :
    ∀ (l : List Char) (x : Char) (r : List Char),
      (∀ a ∈ l, p a = true) → p x = false → ((l ++ x :: r).takeWhile p) = l := by
  intro l
  induction l with
  | nil =>
    intro x r _ hx
    simp [List.takeWhile_cons, hx]
  | cons a t ih =>
    intro x r hall hx
    have ha : p a = true := hall a (List.mem_cons_self _ _)
    rw [List.cons_append, List.takeWhile_cons_of_pos ha,
      ih x r (fun b hb => hall b (List.mem_cons_of_mem _ hb)) hx]

theorem dashHead_keyStr (c : String) (g : Nat) (h : '-' ∉ c.data) :
    dashHead (keyStr c g) = c := by
  unfold dashHead keyStr
  have hdata : ((c ++ "-G" ++ toString g).data) = c.data ++ ('-' :: 'G' :: (toString g).data) := by
    rw [String.data_append, String.data_append]
    rw [List.append_assoc]
    rfl
  rw [hdata]
  rw [takeWhile_all_append _ c.data '-' ('G' :: (toString g).data)
    (fun a ha => by
      have : a ≠ '-' := fun he => h (he ▸ ha)
      simpa using this)
    (by decide)]

theorem inv_seat (caps : Caps) (st : SubState) (s : Student) (cb : Combo)
    (hcb : cb ∈ posibles_g) (hfits : comboFits caps st s cb = true)
    (hinv : ∀ c g, (st.mem c g).length ≤ capFor caps c g) :
    ∀ c g, ((seat st s cb).mem c g).length ≤ capFor caps c g := by
  intro c g
  rw [seat_mem, List.length_append, rosterAdd_length s cb c g hcb]
  by_cases hk : (c, g) ∈ seatKeys s cb
  · rw [if_pos hk]
    obtain ⟨x, y, z⟩ := cb
    obtain ⟨h1, h2, h3⟩ := (comboFits_iff caps st s x y z).1 hfits
    have hk2 : (c, g) ∈ [(s.cn, x), (s.cs, y), (s.cf, z)] := hk
    simp only [List.mem_cons, List.mem_singleton, List.not_mem_nil, or_false] at hk2
    rcases hk2 with he | he | he <;>
      · obtain ⟨hc, hg⟩ := Prod.ext_iff.1 he
        simp only at hc hg
        subst hc; subst hg
        omega
  · rw [if_neg hk]
    have := hinv c g
    omega

theorem inv_statesOf (caps : Caps) :
    ∀ (students : List Student) (st : SubState) (sh : Nat → List Combo) (i : Nat),
      (∀ j, (sh j).Perm posibles_g) →
      (∀ c g, (st.mem c g).length ≤ capFor caps c g) →
      ∀ st2 ∈ statesOf caps st students sh i, ∀ c g,
        (st2.mem c g).length ≤ capFor caps c g := by
  intro students
  induction students with
  | nil =>
    intro st sh i _ hinv st2 hst2
    have : st2 = st := by simpa [statesOf] using hst2
    subst this; exact hinv
  | cons s rest ih =>
    intro st sh i hsh hinv st2 hst2
    have hst2' : st2 ∈ st :: statesOf caps (asignar_subgrupos caps st s (sh i)).1 rest sh (i + 1) := hst2
    rcases List.mem_cons.1 hst2' with rfl | htail
    · exact hinv
    · refine ih _ sh (i + 1) hsh ?_ st2 htail
      rcases asignar_spec caps st s (sh i) with h | ⟨cb, h, hf, _⟩
      · rw [h]; exact hinv
      · rw [h]
        have hcb : cb ∈ posibles_g := by
          have hmem : cb ∈ sortedCombos st s (sh i) := List.mem_of_find?_eq_some hf
          exact ((List.perm_insertionSort _ _).trans (hsh i)).subset hmem
        have hfits : comboFits caps st s cb = true := (find?_split hf).1
        exact inv_seat caps st s cb hcb hfits hinv

theorem sum_map_add {α : Type} (l : List α) (f g : α → Nat) :
    (l.map fun a => f a + g a).sum = (l.map f).sum + (l.map g).sum := by
  induction l with
  | nil => rfl
  | cons a t ih => simp [ih]; omega

theorem sum_ind_zero {α : Type} [DecidableEq α] :
    ∀ (l : List α) (a : α), a ∉ l → (l.map fun k => if k = a then 1 else 0).sum = 0 := by
  intro l
  induction l with
  | nil => intro a _; rfl
  | cons b t ih =>
    intro a ha
    have hba : b ≠ a := fun h => ha (h ▸ List.mem_cons_self _ _)
    have hat : a ∉ t := fun h => ha (List.mem_cons_of_mem _ h)
    simp [hba, ih a hat]

theorem sum_ind_one {α : Type} [DecidableEq α] :
    ∀ (l : List α) (a : α), l.Nodup → a ∈ l →
      (l.map fun k => if k = a then 1 else 0).sum = 1 := by
  intro l
  induction l with
  | nil => intro a _ h; simp at h
  | cons b t ih =>
    intro a hn ha
    obtain ⟨hb, ht⟩ := List.nodup_cons.1 hn
    rcases List.mem_cons.1 ha with rfl | hat
    · simp [sum_ind_zero t a hb]
    · have hba : b ≠ a := fun h => hb (h ▸ hat)
      simp [hba, ih a ht hat]

theorem sum_ind_mem {α : Type} [DecidableEq α] :
    ∀ (S l : List α), l.Nodup → S.Nodup → (∀ k ∈ S, k ∈ l) →
      (l.map fun k => if k ∈ S then 1 else 0).sum = S.length := by
  intro S
  induction S with
  | nil => intro l _ _ _; simp
  | cons a S' ih =>
    intro l hl hn hsub
    obtain ⟨haS, hS'⟩ := List.nodup_cons.1 hn
    have hsplit : ∀ k : α, (if k ∈ a :: S' then (1 : Nat) else 0) =
        (if k = a then 1 else 0) + (if k ∈ S' then 1 else 0) := by
      intro k
      by_cases hk : k = a
      · subst hk
        simp [haS]
      · simp [hk, List.mem_cons]
    calc (l.map fun k => if k ∈ a :: S' then 1 else 0).sum
        = (l.map fun k => (if k = a then 1 else 0) + (if k ∈ S' then 1 else 0)).sum := by
          congr 1
          exact List.map_congr_left fun k _ => hsplit k
      _ = (l.map fun k => if k = a then 1 else 0).sum +
            (l.map fun k => if k ∈ S' then 1 else 0).sum := sum_map_add l _ _
      _ = 1 + S'.length := by
          rw [sum_ind_one l a hl (hsub a (List.mem_cons_self _ _)),
            ih l hl hS' (fun k hk => hsub k (List.mem_cons_of_mem _ hk))]
      _ = (a :: S').length := by simp [Nat.add_comm]

theorem mem_keyList (c : String) (g : Nat) (courses : List String) :
    (c, g) ∈ keyList courses ↔ c ∈ courses ∧ (g = 1 ∨ g = 2 ∨ g = 3) := by
  unfold keyList
  rw [List.mem_flatMap]
  constructor
  · rintro ⟨c2, hc2, hm⟩
    simp only [List.mem_cons, List.mem_singleton, List.not_mem_nil, or_false] at hm
    rcases hm with he | he | he <;>
      · obtain ⟨h1, h2⟩ := Prod.ext_iff.1 he
        simp only at h1 h2
        subst h1
        simp [hc2, h2]
  · rintro ⟨hc, hg⟩
    refine ⟨c, hc, ?_⟩
    rcases hg with rfl | rfl | rfl <;> simp

theorem keyList_nodup : ∀ (courses : List String), courses.Nodup → (keyList courses).Nodup := by
  intro courses
  induction courses with
  | nil => intro _; simp [keyList]
  | cons c cs ih =>
    intro hn
    obtain ⟨hc, hcs⟩ := List.nodup_cons.1 hn
    show ((c, 1) :: (c, 2) :: (c, 3) :: keyList cs).Nodup
    have hnotin : ∀ g : Nat, (c, g) ∉ keyList cs := by
      intro g hmem
      exact hc ((mem_keyList c g cs).1 hmem).1
    refine List.nodup_cons.2 ⟨?_, List.nodup_cons.2 ⟨?_, List.nodup_cons.2 ⟨?_, ih hcs⟩⟩⟩
    · intro h
      rcases List.mem_cons.1 h with he | h
      · exact absurd (congrArg Prod.snd he) (by simp)
      · rcases List.mem_cons.1 h with he | h
        · exact absurd (congrArg Prod.snd he) (by simp)
        · exact hnotin 1 h
    · intro h
      rcases List.mem_cons.1 h with he | h
      · exact absurd (congrArg Prod.snd he) (by simp)
      · exact hnotin 2 h
    · exact hnotin 3

theorem seatKeys_sub_keyList (s : Student) (cb : Combo) (courses : List String)
    (hcn : s.cn ∈ courses) (hcs : s.cs ∈ courses) (hcf : s.cf ∈ courses)
    (hcb : cb ∈ posibles_g) :
    ∀ k ∈ seatKeys s cb, k ∈ keyList courses := by
  obtain ⟨x, y, z⟩ := cb
  have hg : (x = 1 ∨ x = 2 ∨ x = 3) ∧ (y = 1 ∨ y = 2 ∨ y = 3) ∧ (z = 1 ∨ z = 2 ∨ z = 3) := by
    have e : posibles_g = [(1,2,3), (1,3,2), (2,1,3), (2,3,1), (3,1,2), (3,2,1)] := by decide
    rw [e] at hcb
    fin_cases hcb <;> simp
  intro k hk
  have hk2 : k ∈ [(s.cn, x), (s.cs, y), (s.cf, z)] := hk
  simp only [List.mem_cons, List.mem_singleton, List.not_mem_nil, or_false] at hk2
  rcases hk2 with rfl | rfl | rfl
  · exact (mem_keyList _ _ _).2 ⟨hcn, hg.1⟩
  · exact (mem_keyList _ _ _).2 ⟨hcs, hg.2.1⟩
  · exact (mem_keyList _ _ _).2 ⟨hcf, hg.2.2⟩

theorem sumLens_seat (st : SubState) (s : Student) (cb : Combo)
    (hnodup : st.courses.Nodup)
    (hcn : s.cn ∈ st.courses) (hcs : s.cs ∈ st.courses) (hcf : s.cf ∈ st.courses)
    (hcb : cb ∈ posibles_g) :
    sumLens (seat st s cb) = sumLens st + 3 := by
  unfold sumLens
  rw [seat_courses]
  have hterm : ∀ k ∈ keyList st.courses,
      ((seat st s cb).mem k.1 k.2).length =
        (st.mem k.1 k.2).length + (if (k.1, k.2) ∈ seatKeys s cb then 1 else 0) := by
    intro k _
    rw [seat_mem, List.length_append, rosterAdd_length s cb k.1 k.2 hcb]
  calc ((keyList st.courses).map fun k => ((seat st s cb).mem k.1 k.2).length).sum
      = ((keyList st.courses).map fun k =>
          (st.mem k.1 k.2).length + (if (k.1, k.2) ∈ seatKeys s cb then 1 else 0)).sum := by
        congr 1
        exact List.map_congr_left hterm
    _ = ((keyList st.courses).map fun k => (st.mem k.1 k.2).length).sum +
          ((keyList st.courses).map fun k =>
            if (k.1, k.2) ∈ seatKeys s cb then 1 else 0).sum := sum_map_add _ _ _
    _ = ((keyList st.courses).map fun k => (st.mem k.1 k.2).length).sum + 3 := by
        congr 1
        have heq : ((keyList st.courses).map fun k =>
            if (k.1, k.2) ∈ seatKeys s cb then (1 : Nat) else 0) =
            ((keyList st.courses).map fun k => if k ∈ seatKeys s cb then (1 : Nat) else 0) := by
          apply List.map_congr_left
          intro k _
          congr 1
        rw [heq]
        have h3 := sum_ind_mem (seatKeys s cb) (keyList st.courses)
          (keyList_nodup st.courses hnodup) (seatKeys_nodup s cb hcb)
          (seatKeys_sub_keyList s cb st.courses hcn hcs hcf hcb)
        have hlen : (seatKeys s cb).length = 3 := by
          obtain ⟨x, y, z⟩ := cb; rfl
        rw [hlen] at h3
        convert h3 using 3
        funext k
        by_cases hk : k ∈ seatKeys s cb <;> simp [hk]

theorem sumLens_procesar (caps : Caps) :
    ∀ (students : List Student) (st : SubState) (sh : Nat → List Combo) (i : Nat),
      st.courses.Nodup → (∀ j, (sh j).Perm posibles_g) →
      sumLens (procesar caps st students sh i).2 =
        sumLens st + 3 * seatedCount (procesar caps st students sh i).1 := by
  intro students
  induction students with
  | nil => intro st sh i _ _; simp [procesar, seatedCount]
  | cons s rest ih =>
    intro st sh i hnodup hsh
    have hrec : (procesar caps st (s :: rest) sh i) =
        ((asignar_subgrupos caps st s (sh i)).2 ::
          (procesar caps (asignar_subgrupos caps st s (sh i)).1 rest sh (i + 1)).1,
         (procesar caps (asignar_subgrupos caps st s (sh i)).1 rest sh (i + 1)).2) := rfl
    rw [hrec]
    rcases asignar_spec caps st s (sh i) with h | ⟨cb, h, hf, hc⟩
    · rw [h]
      show sumLens (procesar caps st rest sh (i + 1)).2 = _
      rw [ih st sh (i + 1) hnodup hsh]
      simp [seatedCount]
    · rw [h]
      show sumLens (procesar caps (seat st s cb) rest sh (i + 1)).2 = _
      have hcourses : (seat st s cb).courses.Nodup := by rw [seat_courses]; exact hnodup
      rw [ih (seat st s cb) sh (i + 1) hcourses hsh]
      have hcb : cb ∈ posibles_g := by
        have hmem : cb ∈ sortedCombos st s (sh i) := List.mem_of_find?_eq_some hf
        exact ((List.perm_insertionSort _ _).trans (hsh i)).subset hmem
      rw [sumLens_seat st s cb hnodup hc.1 hc.2.1 hc.2.2 hcb]
      simp [seatedCount]
      omega

theorem rosterAdd_countP_self (s : Student) (cb : Combo) (c : String) (g : Nat) :
    ((rosterAdd s cb c g).countP fun e => decide (e.1 = s.nombre)) =
      (rosterAdd s cb c g).length := by
  apply List.countP_eq_length.2
  intro e he
  unfold rosterAdd at he
  obtain ⟨k, _, rfl⟩ := List.mem_map.1 he
  simp

theorem rosterAdd_countP_other (s t : Student) (cb : Combo) (c : String) (g : Nat)
    (h : t.nombre ≠ s.nombre) :
    ((rosterAdd t cb c g).countP fun e => decide (e.1 = s.nombre)) = 0 := by
  apply List.countP_eq_zero.2
  intro e he
  unfold rosterAdd at he
  obtain ⟨k, _, rfl⟩ := List.mem_map.1 he
  simpa using h

theorem addedTo_countP_zero (c : String) (g : Nat) (n : String) :
    ∀ (outs : List (Student × Option Combo)),
      (∀ p ∈ outs, p.1.nombre ≠ n) →
      ((addedTo c g outs).countP fun e => decide (e.1 = n)) = 0 := by
  intro outs
  induction outs with
  | nil => intro _; rfl
  | cons p rest ih =>
    intro hall
    obtain ⟨t, o⟩ := p
    have ht : t.nombre ≠ n := hall (t, o) (List.mem_cons_self _ _)
    have hrest := ih fun q hq => hall q (List.mem_cons_of_mem _ hq)
    cases o with
    | none => rw [addedTo]; exact hrest
    | some cb =>
      rw [addedTo, List.countP_append, hrest]
      have : ((rosterAdd t cb c g).countP fun e => decide (e.1 = n)) = 0 := by
        apply List.countP_eq_zero.2
        intro e he
        unfold rosterAdd at he
        obtain ⟨k, _, rfl⟩ := List.mem_map.1 he
        simpa using ht
      rw [this]

theorem addedTo_countP (c : String) (g : Nat) :
    ∀ (outs : List (Student × Option Combo)) (s : Student) (o : Option Combo),
      ((outs.map fun p => p.1.nombre).Nodup) → (s, o) ∈ outs →
      ((addedTo c g outs).countP fun e => decide (e.1 = s.nombre)) =
        match o with
        | some cb => (rosterAdd s cb c g).length
        | none => 0 := by
  intro outs
  induction outs with
  | nil => intro s o _ h; simp at h
  | cons p rest ih =>
    intro s o hn hmem
    obtain ⟨t, ot⟩ := p
    have hn2 : (rest.map fun p => p.1.nombre).Nodup := (List.nodup_cons.1 hn).2
    have hnotin : t.nombre ∉ rest.map fun p => p.1.nombre := (List.nodup_cons.1 hn).1
    rcases List.mem_cons.1 hmem with heq | htail
    · obtain ⟨h1, h2⟩ := Prod.ext_iff.1 heq
      simp only at h1 h2
      subst h1; subst h2
      have hzero : ((addedTo c g rest).countP fun e => decide (e.1 = s.nombre)) = 0 := by
        apply addedTo_countP_zero
        intro q hq he
        exact hnotin (he ▸ List.mem_map.2 ⟨q, hq, rfl⟩)
      cases o with
      | none => rw [addedTo]; exact hzero
      | some cb =>
        rw [addedTo, List.countP_append, hzero, rosterAdd_countP_self]
        simp
    · have hts : t.nombre ≠ s.nombre := by
        intro he
        apply hnotin
        rw [he]
        exact List.mem_map.2 ⟨(s, o), htail, rfl⟩
      have hrest := ih s o hn2 htail
      cases ot with
      | none => rw [addedTo]; exact hrest
      | some cb =>
        rw [addedTo, List.countP_append, hrest, rosterAdd_countP_other s t cb c g hts]
        cases o <;> simp

theorem rosterAdd_eq (s : Student) (cb : Combo) (c : String) (g : Nat)
    (h : cb ∈ posibles_g) :
    rosterAdd s cb c g =
      if (c, g) ∈ seatKeys s cb then [(s.nombre, s.group)] else [] := by
  have hlen := rosterAdd_length s cb c g h
  by_cases hk : (c, g) ∈ seatKeys s cb
  · rw [if_pos hk]
    rw [if_pos hk] at hlen
    obtain ⟨a, ha⟩ := List.length_eq_one.1 hlen
    have hae : a = (s.nombre, s.group) := by
      have hmem : a ∈ rosterAdd s cb c g := ha ▸ List.mem_singleton_self a
      unfold rosterAdd at hmem
      obtain ⟨k, _, rfl⟩ := List.mem_map.1 hmem
      rfl
    rw [ha, hae]
  · rw [if_neg hk]
    rw [if_neg hk] at hlen
    exact List.length_eq_zero.1 hlen

/-- C1: the engine's candidate set `posibles_g` is exactly the 6 bijections
from the three tracks to the slot numbers 1, 2, 3 (listed explicitly and
characterised as the triples that are permutations of 1, 2, 3), and for
every student the engine seats — under any shuffle oracle that permutes
`posibles_g` — the three assigned slot numbers form a permutation of
1, 2, 3, hence are pairwise distinct. -/
theorem c1_slots_permutation :
    posibles_g = [(1,2,3), (1,3,2), (2,1,3), (2,3,1), (3,1,2), (3,2,1)] ∧
    (∀ cb : Combo, cb ∈ posibles_g ↔ [cb.1, cb.2.1, cb.2.2].Perm [1, 2, 3]) ∧
    ∀ (caps : Caps) (st : SubState) (s : Student) (l : List Combo) (cb : Combo),
      l.Perm posibles_g → (asignar_subgrupos caps st s l).2 = some cb →
        [cb.1, cb.2.1, cb.2.2].Perm [1, 2, 3] ∧
        cb.1 ≠ cb.2.1 ∧ cb.2.1 ≠ cb.2.2 ∧ cb.1 ≠ cb.2.2 := by
  refine ⟨posibles_g_eq, mem_posibles_iff, ?_⟩
  intro caps st s l cb hperm hsome
  obtain ⟨_, hf, _⟩ := asignar_some caps st s l cb hsome
  have hmem : cb ∈ posibles_g :=
    ((List.perm_insertionSort _ _).trans hperm).subset (List.mem_of_find?_eq_some hf)
  have hp13 := (mem_posibles_iff cb).1 hmem
  have hnd : [cb.1, cb.2.1, cb.2.2].Nodup := hp13.nodup_iff.2 (by decide)
  simp only [List.nodup_cons, List.mem_cons, List.mem_singleton, List.not_mem_nil,
    or_false, List.nodup_nil, and_true] at hnd
  refine ⟨hp13, ?_, ?_, ?_⟩
  · exact fun he => hnd.1 (Or.inl he)
  · exact hnd.2.1
  · exact fun he => hnd.1 (Or.inr he)

/-- C1 witness: a concrete student is seated with combination (1, 2, 3),
whose slots are a permutation of 1, 2, 3 and pairwise distinct. -/
theorem c1_slots_permutation_witness :
    (asignar_subgrupos (max_students_per_group d9) (subgrupos_init d9)
        ⟨"P", "", "C1", "C2", "C3"⟩ posibles_g).2 = some (1, 2, 3) ∧
      ([(1 : Nat), 2, 3].Perm [1, 2, 3] ∧
        (1 : Nat) ≠ 2 ∧ (2 : Nat) ≠ 3 ∧ (1 : Nat) ≠ 3) :=
  ⟨by decide,
    c1_slots_permutation.2.2 (max_students_per_group d9) (subgrupos_init d9)
      ⟨"P", "", "C1", "C2", "C3"⟩ posibles_g (1, 2, 3) (List.Perm.refl _) (by decide)⟩

/-- C5 counterexample: it is not true that a seated student's chosen
combination always has all three target sub-groups strictly below the
capacity table's value for the choice (fallback 21 only for absent
values).  After 4 of the 10 dashed-choice students of `dataAB` are seated
every target sub-group holds 4 students — exactly the table capacity of
`A-B` — yet the engine still seats the next student, because the guard
looks the capacity up at the dash-truncated key `A`. -/
theorem c5_counterexample :
    ¬ (∀ (caps : Caps) (st : SubState) (s : Student) (l : List Combo) (cb : Combo),
        l.Perm posibles_g → (asignar_subgrupos caps st s l).2 = some cb →
          (st.mem s.cn cb.1).length < (caps s.cn).getD 21 ∧
          (st.mem s.cs cb.2.1).length < (caps s.cs).getD 21 ∧
          (st.mem s.cf cb.2.2).length < (caps s.cf).getD 21) := by
  intro hclaim
  have := hclaim (max_students_per_group dataAB)
    (procesar (max_students_per_group dataAB) (subgrupos_init dataAB)
      (List.replicate 4 stAB) shId 0).2
    stAB posibles_g (1, 2, 3) (List.Perm.refl _) (by decide)
  revert this
  decide

/-- C5 amended: whenever the engine seats a student, the chosen
combination is the first one — in the stable ascending ordering of the
shuffled combinations by current occupancy sum — whose three target
sub-groups are strictly below the capacity the code actually enforces
(`capFor`: the table looked up at the portion of the key string before
its first dash, fallback 21); consequently the scan list is a sorted
permutation of the shuffled list and the chosen combination has minimal
current occupancy sum among all combinations that satisfy the guard. -/
theorem c5_greedy_first_fit :
    ∀ (caps : Caps) (st : SubState) (s : Student) (l : List Combo) (cb : Combo),
      (asignar_subgrupos caps st s l).2 = some cb →
        (asignar_subgrupos caps st s l).1 = seat st s cb ∧
        (sortedCombos st s l).find? (comboFits caps st s) = some cb ∧
        comboFits caps st s cb = true ∧
        cb ∈ sortedCombos st s l ∧
        (sortedCombos st s l).Perm l ∧
        List.Sorted (fun a b => comboSum st s a ≤ comboSum st s b) (sortedCombos st s l) ∧
        ∀ d ∈ sortedCombos st s l, comboFits caps st s d = true →
          comboSum st s cb ≤ comboSum st s d := by
  intro caps st s l cb hsome
  obtain ⟨hst, hf, _⟩ := asignar_some caps st s l cb hsome
  refine ⟨hst, hf, (find?_split hf).1, List.mem_of_find?_eq_some hf,
    sortedCombos_perm st s l, sortedCombos_sorted st s l, ?_⟩
  exact find?_sorted_min (sortedCombos_sorted st s l) hf

/-- C5 witness: the first-fit, sortedness, permutation and minimality
facts evaluated on a concrete single-student batch. -/
theorem c5_greedy_first_fit_witness :
    (asignar_subgrupos (max_students_per_group d9) (subgrupos_init d9)
        ⟨"P", "", "C1", "C2", "C3"⟩ posibles_g).1 =
      seat (subgrupos_init d9) ⟨"P", "", "C1", "C2", "C3"⟩ (1, 2, 3) ∧
    (sortedCombos (subgrupos_init d9) ⟨"P", "", "C1", "C2", "C3"⟩ posibles_g).find?
        (comboFits (max_students_per_group d9) (subgrupos_init d9) ⟨"P", "", "C1", "C2", "C3"⟩) =
      some (1, 2, 3) ∧
    comboFits (max_students_per_group d9) (subgrupos_init d9)
        ⟨"P", "", "C1", "C2", "C3"⟩ (1, 2, 3) = true ∧
    (1, 2, 3) ∈ sortedCombos (subgrupos_init d9) ⟨"P", "", "C1", "C2", "C3"⟩ posibles_g ∧
    (sortedCombos (subgrupos_init d9) ⟨"P", "", "C1", "C2", "C3"⟩ posibles_g).Perm posibles_g ∧
    List.Sorted (fun a b =>
        comboSum (subgrupos_init d9) ⟨"P", "", "C1", "C2", "C3"⟩ a ≤
          comboSum (subgrupos_init d9) ⟨"P", "", "C1", "C2", "C3"⟩ b)
      (sortedCombos (subgrupos_init d9) ⟨"P", "", "C1", "C2", "C3"⟩ posibles_g) ∧
    ∀ d ∈ sortedCombos (subgrupos_init d9) ⟨"P", "", "C1", "C2", "C3"⟩ posibles_g,
      comboFits (max_students_per_group d9) (subgrupos_init d9)
          ⟨"P", "", "C1", "C2", "C3"⟩ d = true →
        comboSum (subgrupos_init d9) ⟨"P", "", "C1", "C2", "C3"⟩ (1, 2, 3) ≤
          comboSum (subgrupos_init d9) ⟨"P", "", "C1", "C2", "C3"⟩ d :=
  c5_greedy_first_fit (max_students_per_group d9) (subgrupos_init d9)
    ⟨"P", "", "C1", "C2", "C3"⟩ posibles_g (1, 2, 3) (by decide)

/-- C6: seating is all-or-nothing — a student the engine cannot seat
leaves the dictionary unchanged, a seated student is appended to exactly
the three sub-groups of the chosen combination in one step (every other
sub-group is untouched), the batch produces one result per student, and
rosters only ever grow by appending, so previously seated students are
never revisited or reassigned. -/
theorem c6_atomic_seating :
    ∀ (caps : Caps) (st : SubState) (s : Student) (l : List Combo),
      ((asignar_subgrupos caps st s l).2 = none → (asignar_subgrupos caps st s l).1 = st) ∧
      (∀ cb, l.Perm posibles_g → (asignar_subgrupos caps st s l).2 = some cb →
        (asignar_subgrupos caps st s l).1 = seat st s cb ∧
        ∀ c g, (seat st s cb).mem c g =
          st.mem c g ++ (if (c, g) ∈ seatKeys s cb then [(s.nombre, s.group)] else [])) ∧
      ∀ (students : List Student) (sh : Nat → List Combo) (i : Nat),
        (procesar caps st students sh i).1.length = students.length ∧
        ∀ c g, growsFrom (st.mem c g) ((procesar caps st students sh i).2.mem c g) := by
  intro caps st s l
  refine ⟨asignar_none caps st s l, ?_, ?_⟩
  · intro cb hperm hsome
    obtain ⟨hst, hf, _⟩ := asignar_some caps st s l cb hsome
    have hmem : cb ∈ posibles_g :=
      ((List.perm_insertionSort _ _).trans hperm).subset (List.mem_of_find?_eq_some hf)
    refine ⟨hst, ?_⟩
    intro c g
    rw [seat_mem, rosterAdd_eq s cb c g hmem]
  · intro students sh i
    constructor
    · rw [procesar_fst]
      have := outcomes_fst caps students st sh i
      calc ((outcomesOf caps st students sh i).map Prod.snd).length
          = (outcomesOf caps st students sh i).length := List.length_map _ _
        _ = ((outcomesOf caps st students sh i).map Prod.fst).length :=
            (List.length_map _ _).symm
        _ = students.length := by rw [this]
    · intro c g
      exact ⟨addedTo c g (outcomesOf caps st students sh i),
        procesar_mem caps students st sh i c g⟩

/-- C6 witness: a concrete capacity-starved student leaves the state
unchanged. -/
theorem c6_atomic_seating_witness :
    (asignar_subgrupos capsZero stA sCap posibles_g).1 = stA :=
  (c6_atomic_seating capsZero stA sCap posibles_g).1 (by decide)

/-- C7 counterexample: no function of the returned result can recover
the list of students whose processing raised an exception — a batch whose
only student takes the exception path (`sBad`, whose choices are not dict
courses) and a batch whose only student is unseated for capacity reasons
(`sCap`) produce identical outputs, so the error is not surfaced in an
error list returned alongside the result. -/
theorem c7_counterexample :
    ¬ ∃ errOf : List (Option Combo) × SubState → List String,
        ∀ (caps : Caps) (st : SubState) (students : List Student)
          (sh : Nat → List Combo) (i : Nat),
          errOf (procesar caps st students sh i) = erroredNames st students := by
  rintro ⟨errOf, h⟩
  have h1 := h capsZero stA [sBad] shId 0
  have h2 := h capsZero stA [sCap] shId 0
  have heq : procesar capsZero stA [sBad] shId 0 = procesar capsZero stA [sCap] shId 0 := rfl
  have : erroredNames stA [sBad] = erroredNames stA [sCap] := by
    rw [← h1, heq, h2]
  revert this
  decide

/-- C7 amended: an exception while processing one student (a choice that
is not a dict course, raising `KeyError` in the occupancy lookups) is
caught locally — the student's call returns an unchanged state and
`False`/`none` — and processing continues with every remaining student of
the batch. -/
theorem c7_error_recovery :
    ∀ (caps : Caps) (st : SubState) (s : Student) (rest : List Student)
      (sh : Nat → List Combo) (i : Nat),
      ¬ hayCursos st s →
      asignar_subgrupos caps st s (sh i) = (st, none) ∧
      procesar caps st (s :: rest) sh i =
        (none :: (procesar caps st rest sh (i + 1)).1,
          (procesar caps st rest sh (i + 1)).2) := by
  intro caps st s rest sh i hno
  have ha : asignar_subgrupos caps st s (sh i) = (st, none) := by
    unfold asignar_subgrupos
    rw [if_neg hno]
  refine ⟨ha, ?_⟩
  show ((asignar_subgrupos caps st s (sh i)).2 ::
      (procesar caps (asignar_subgrupos caps st s (sh i)).1 rest sh (i + 1)).1,
    (procesar caps (asignar_subgrupos caps st s (sh i)).1 rest sh (i + 1)).2) = _
  rw [ha]

/-- C7 witness: the exception path evaluated on a concrete two-student
batch whose first student's choices are not dict courses. -/
theorem c7_error_recovery_witness :
    asignar_subgrupos capsZero stA sBad (shId 0) = (stA, none) ∧
    procesar capsZero stA (sBad :: [sCap]) shId 0 =
      (none :: (procesar capsZero stA [sCap] shId 1).1,
        (procesar capsZero stA [sCap] shId 1).2) :=
  c7_error_recovery capsZero stA sBad [sCap] shId 0 (by decide)

/-- C2 counterexample: occupancy is not bounded by the capacity table's
value for the choice (fallback 21 for absent values).  With 10 students
whose every choice is `A-B`, the table maps `A-B` to ceil(10/3) = 4, but
the final state of the run — one of the states of the trace — holds 10
students in sub-group (`A-B`, 1), because the guard of line 136 looks the
capacity up at `gk.split('-')[0]` = `A`, which is absent, so the fallback
21 is enforced instead. -/
theorem c2_counterexample :
    ¬ (∀ (data σ : List Student) (sh : Nat → List Combo),
        σ.Perm data → (∀ j, (sh j).Perm posibles_g) →
        ∀ st2 ∈ statesOf (max_students_per_group data) (subgrupos_init data) σ sh 0,
          ∀ c ∈ st2.courses, ∀ g ∈ [1, 2, 3],
            (st2.mem c g).length ≤ ((max_students_per_group data) c).getD 21) := by
  intro hclaim
  have hfin := final_mem_statesOf (max_students_per_group dataAB)
    dataAB (subgrupos_init dataAB) shId 0
  have hcourses : (procesar (max_students_per_group dataAB) (subgrupos_init dataAB)
      dataAB shId 0).2.courses = cursos dataAB :=
    procesar_courses _ _ _ _ _
  have hAB : "A-B" ∈ (procesar (max_students_per_group dataAB) (subgrupos_init dataAB)
      dataAB shId 0).2.courses := by
    rw [hcourses]; decide
  have := hclaim dataAB dataAB shId (List.Perm.refl _) (fun _ => List.Perm.refl _)
    _ hfin "A-B" hAB 1 (by decide)
  revert this
  decide

/-- C2 amended: at every point during and after a run (every state of
the trace), the occupancy of sub-group (c, g) is at most the capacity the
code actually enforces — the table looked up at the portion of c before
its first dash, fallback 21 (`capFor`) — provided the shuffle oracle
produces permutations of `posibles_g`; and for every choice value
containing no dash this enforced bound coincides with the originally
claimed bound, the table's value at c with fallback 21. -/
theorem c2_amended_invariant :
    ∀ (caps : Caps) (st : SubState) (students : List Student) (sh : Nat → List Combo) (i : Nat),
      (∀ j, (sh j).Perm posibles_g) →
      (∀ c g, (st.mem c g).length ≤ capFor caps c g) →
      (∀ st2 ∈ statesOf caps st students sh i, ∀ c g,
        (st2.mem c g).length ≤ capFor caps c g) ∧
      (∀ c g, '-' ∉ c.data → capFor caps c g = (caps c).getD 21) := by
  intro caps st students sh i hsh hinv
  refine ⟨inv_statesOf caps students st sh i hsh hinv, ?_⟩
  intro c g hc
  unfold capFor
  rw [dashHead_keyStr c g hc]

/-- C2 witness: the invariant instantiated on a concrete two-student
batch starting from the empty initial state. -/
theorem c2_amended_invariant_witness :
    (∀ st2 ∈ statesOf (max_students_per_group dataW) (subgrupos_init dataW) dataW shId 0,
      ∀ c g, (st2.mem c g).length ≤ capFor (max_students_per_group dataW) c g) ∧
    (∀ c g, '-' ∉ c.data →
      capFor (max_students_per_group dataW) c g = ((max_students_per_group dataW) c).getD 21) :=
  c2_amended_invariant (max_students_per_group dataW) (subgrupos_init dataW) dataW shId 0
    (fun _ => List.Perm.refl _) (fun _ _ => Nat.zero_le _)

/-- C10: after a run from the freshly initialised dictionary, the sum of
the lengths of all sub-group membership lists equals exactly 3 times the
number of seated students; moreover, when student names are distinct, a
seated student's name occurs exactly once in each of the three sub-groups
of their chosen combination and nowhere else, and an unseated (or
errored) student's name occurs in no sub-group. -/
theorem c10_seats_theorem :
    ∀ (data σ : List Student) (sh : Nat → List Combo) (rs : List (Option Combo)) (st2 : SubState),
      (∀ j, (sh j).Perm posibles_g) →
      procesar (max_students_per_group data) (subgrupos_init data) σ sh 0 = (rs, st2) →
      sumLens st2 = 3 * seatedCount rs ∧
      ((σ.map fun s => s.nombre).Nodup →
        ∀ p ∈ outcomesOf (max_students_per_group data) (subgrupos_init data) σ sh 0,
          ∀ c g,
            ((st2.mem c g).countP fun e => decide (e.1 = p.1.nombre)) =
              match p.2 with
              | some cb => if (c, g) ∈ seatKeys p.1 cb then 1 else 0
              | none => 0) := by
  intro data σ sh rs st2 hsh hrun
  constructor
  · have h1 := sumLens_procesar (max_students_per_group data) σ (subgrupos_init data) sh 0
      (List.nodup_dedup _) hsh
    rw [hrun] at h1
    have hz : sumLens (subgrupos_init data) = 0 := by
      apply List.sum_eq_zero
      intro x hx
      obtain ⟨k, _, rfl⟩ := List.mem_map.1 hx
      rfl
    simpa [hz] using h1
  · intro hnodup p hp c g
    obtain ⟨s, o⟩ := p
    have hmem : st2.mem c g =
        addedTo c g (outcomesOf (max_students_per_group data) (subgrupos_init data) σ sh 0) := by
      have := procesar_mem (max_students_per_group data) σ (subgrupos_init data) sh 0 c g
      rw [hrun] at this
      simpa using this
    rw [hmem]
    have hfst : ((outcomesOf (max_students_per_group data) (subgrupos_init data) σ sh 0).map
        fun p => p.1.nombre) = σ.map fun s => s.nombre := by
      rw [show (fun p : Student × Option Combo => p.1.nombre) =
        (fun s : Student => s.nombre) ∘ Prod.fst from rfl]
      rw [← List.map_map, outcomes_fst]
    have hcount := addedTo_countP c g
      (outcomesOf (max_students_per_group data) (subgrupos_init data) σ sh 0) s o
      (by rw [hfst]; exact hnodup) hp
    rw [hcount]
    cases o with
    | none => rfl
    | some cb =>
      have hcb : cb ∈ posibles_g :=
        (outcomes_some (max_students_per_group data) σ (subgrupos_init data) sh 0 hsh
          (s, some cb) hp cb rfl).1
      exact rosterAdd_length s cb c g hcb

/-- C10 witness: the seat-count identity evaluated on a concrete
two-student batch. -/
theorem c10_seats_witness :
    sumLens (procesar (max_students_per_group dataW) (subgrupos_init dataW) dataW shId 0).2 =
      3 * seatedCount (procesar (max_students_per_group dataW) (subgrupos_init dataW) dataW shId 0).1 :=
  (c10_seats_theorem dataW dataW shId _ _ (fun _ => List.Perm.refl _) rfl).1

theorem foldUpd_lookup :
    ∀ (l : List String) (f : String → Nat) (caps : Caps) (v : String),
      (l.foldl (fun acc k => capsUpdate acc k (f k)) caps) v =
        if v ∈ l then some (f v) else caps v := by
  intro l
  induction l with
  | nil => intro f caps v; simp
  | cons a t ih =>
    intro f caps v
    show (t.foldl (fun acc k => capsUpdate acc k (f k)) (capsUpdate caps a (f a))) v = _
    rw [ih]
    by_cases hvt : v ∈ t
    · simp [hvt, List.mem_cons]
    · by_cases hva : v = a
      · subst hva
        simp [hvt, capsUpdate]
      · simp [hvt, hva, capsUpdate, List.mem_cons]

theorem buildColumn_lookup (col : Student → String) (data : List Student) (caps : Caps)
    (v : String) :
    buildColumn col data caps v =
      if v ∈ data.map col then some (ceil3 (countCol col data v)) else caps v := by
  unfold buildColumn
  rw [foldUpd_lookup]
  by_cases hv : v ∈ (data.map col).dedup
  · rw [if_pos hv, if_pos (List.mem_dedup.1 hv)]
  · rw [if_neg hv, if_neg (fun h => hv (List.mem_dedup.2 h))]

/-- C3 counterexample: the capacity of a choice value is not
ceil(N/3) for N the number of students choosing the value in any track.
In `dataX`, five distinct students choose `X` (four in column CN, one in
column CF), so the claim demands ceil(5/3) = 2, but the CF pass of the
loop overwrites the table entry with ceil(1/3) = 1. -/
theorem c3_counterexample :
    ¬ (∀ (data : List Student) (v : String),
        v ∈ (data.map fun s => s.cn) ++ (data.map fun s => s.cs) ++ (data.map fun s => s.cf) →
        max_students_per_group data v =
          some (ceil3 (data.countP fun s => decide (s.cn = v ∨ s.cs = v ∨ s.cf = v))) ∧
        (data.countP fun s => decide (s.cn = v ∨ s.cs = v ∨ s.cf = v)) ≤
          3 * ((max_students_per_group data v).getD 0) ∧
        (∀ w, max_students_per_group [] w = none)) := by
  intro hclaim
  have := (hclaim dataX "X" (by decide)).1
  revert this
  decide

/-- C3 amended: the capacity table maps a value v to ceil(N/3) where N
is the count of v in the LAST column (in CN, CS, CF order) in which v
appears, and to nothing when v appears in no column; an empty student
list yields the empty table; and every stored capacity n satisfies
3 * n ≥ the count of v in that column. -/
theorem c3_capacity_characterization :
    (∀ (data : List Student) (v : String),
      max_students_per_group data v =
        (if v ∈ data.map fun s => s.cf then some (ceil3 (countCol (fun s => s.cf) data v))
         else if v ∈ data.map fun s => s.cs then some (ceil3 (countCol (fun s => s.cs) data v))
         else if v ∈ data.map fun s => s.cn then some (ceil3 (countCol (fun s => s.cn) data v))
         else none)) ∧
    (∀ w, max_students_per_group [] w = none) ∧
    (∀ (data : List Student) (v : String) (n : Nat),
      max_students_per_group data v = some n →
      ∃ col : Student → String,
        ((col = fun s => s.cn) ∨ (col = fun s => s.cs) ∨ (col = fun s => s.cf)) ∧
        n = ceil3 (countCol col data v) ∧ countCol col data v ≤ 3 * n) := by
  have hchar : ∀ (data : List Student) (v : String),
      max_students_per_group data v =
        (if v ∈ data.map fun s => s.cf then some (ceil3 (countCol (fun s => s.cf) data v))
         else if v ∈ data.map fun s => s.cs then some (ceil3 (countCol (fun s => s.cs) data v))
         else if v ∈ data.map fun s => s.cn then some (ceil3 (countCol (fun s => s.cn) data v))
         else none) := by
    intro data v
    unfold max_students_per_group
    rw [buildColumn_lookup]
    by_cases hcf : v ∈ data.map fun s => s.cf
    · rw [if_pos hcf, if_pos hcf]
    · rw [if_neg hcf, if_neg hcf, buildColumn_lookup]
      by_cases hcs : v ∈ data.map fun s => s.cs
      · rw [if_pos hcs, if_pos hcs]
      · rw [if_neg hcs, if_neg hcs, buildColumn_lookup]
  refine ⟨hchar, fun w => rfl, ?_⟩
  intro data v n hn
  rw [hchar data v] at hn
  by_cases hcf : v ∈ data.map fun s => s.cf
  · rw [if_pos hcf] at hn
    refine ⟨fun s => s.cf, Or.inr (Or.inr rfl), ?_, ?_⟩
    · exact (Option.some.injEq _ _ ▸ hn).symm
    · have : n = ceil3 (countCol (fun s => s.cf) data v) := by
        injection hn.symm
      rw [this]
      unfold ceil3
      omega
  · rw [if_neg hcf] at hn
    by_cases hcs : v ∈ data.map fun s => s.cs
    · rw [if_pos hcs] at hn
      refine ⟨fun s => s.cs, Or.inr (Or.inl rfl), ?_, ?_⟩
      · injection hn.symm
      · have : n = ceil3 (countCol (fun s => s.cs) data v) := by injection hn.symm
        rw [this]
        unfold ceil3
        omega
    · rw [if_neg hcs] at hn
      by_cases hcn : v ∈ data.map fun s => s.cn
      · rw [if_pos hcn] at hn
        refine ⟨fun s => s.cn, Or.inl rfl, ?_, ?_⟩
        · injection hn.symm
        · have : n = ceil3 (countCol (fun s => s.cn) data v) := by injection hn.symm
          rw [this]
          unfold ceil3
          omega
      · rw [if_neg hcn] at hn
        exact absurd hn (by simp)

/-- C3 witness: the stored capacity 1 of value `X` in `dataX` is
ceil of the count of `X` in one of the three columns, with the 3n bound. -/
theorem c3_capacity_characterization_witness :
    ∃ col : Student → String,
      ((col = fun s => s.cn) ∨ (col = fun s => s.cs) ∨ (col = fun s => s.cf)) ∧
      1 = ceil3 (countCol col dataX "X") ∧ countCol col dataX "X" ≤ 3 * 1 :=
  c3_capacity_characterization.2.2 dataX "X" 1 (by decide)

/-- C4: determinism — the engine run and both views are a pure function
of the student list and the integer seed (the generators are deterministic
in the seed), so two runs on identical input produce identical summary
view, roster view, seated count and total count. -/
theorem c4_determinism :
    ∀ (data : List Student) (seed : Nat)
      (o1 o2 : List Row × List (GKey × Roster) × Nat × Nat),
      o1 = runFull data seed → o2 = runFull data seed → o1 = o2 := by
  intro data seed o1 o2 h1 h2
  rw [h1, h2]

/-- C4 witness: two runs on a concrete batch with seed 7 coincide. -/
theorem c4_determinism_witness : runFull dataW 7 = runFull dataW 7 :=
  c4_determinism dataW 7 (runFull dataW 7) (runFull dataW 7) rfl rfl

theorem shuffleGo_snd {α : Type} :
    ∀ (fuel : Nat) (l : List α) (r : Nat), l.length ≤ fuel →
      (shuffleGo fuel r l).2 = lcgIter l.length r := by
  intro fuel
  induction fuel with
  | zero =>
    intro l r hl
    have : l = [] := List.length_eq_zero.1 (Nat.le_zero.1 hl)
    subst this
    rfl
  | succ fuel ih =>
    intro l r hl
    cases l with
    | nil => rfl
    | cons a rest =>
      show (match (a :: rest).rotate (r % (a :: rest).length) with
        | [] => ([], r)
        | b :: tail =>
          let p := shuffleGo fuel (lcg r) tail
          (b :: p.1, p.2)).2 = _
      cases hrot : (a :: rest).rotate (r % (a :: rest).length) with
      | nil =>
        have := List.length_rotate (a :: rest) (r % (a :: rest).length)
        rw [hrot] at this
        simp at this
      | cons b tail =>
        have hlen : tail.length = rest.length := by
          have := List.length_rotate (a :: rest) (r % (a :: rest).length)
          rw [hrot] at this
          simpa using this
        show (shuffleGo fuel (lcg r) tail).2 = _
        rw [ih tail (lcg r) (by simp at hl; omega)]
        rw [hlen]
        rfl

theorem shuffleS_snd {α : Type} (r : Nat) (l : List α) :
    (shuffleS r l).2 = lcgIter l.length r :=
  shuffleGo_snd l.length l r (Nat.le_refl _)

theorem lcgIter_add : ∀ (a b x : Nat), lcgIter a (lcgIter b x) = lcgIter (a + b) x := by
  intro a b
  induction b generalizing a with
  | zero => intro x; rfl
  | succ b ih =>
    intro x
    show lcgIter a (lcgIter b (lcg x)) = lcgIter (a + (b + 1)) x
    rw [ih a (lcg x)]
    show lcgIter (a + b) (lcg x) = _
    have : a + (b + 1) = (a + b) + 1 := by omega
    rw [this]
    rfl

/-- C9 counterexample: the batch-order shuffle and the per-student
combination shuffles are NOT drawn from one single continuing stream —
the code seeds the pandas generator (line 92) and the `random` module
stream (line 91) separately.  A run in which one continuing stream
drives both (the spec-modelled `runSingleStream`) seats the single
student of `d9` at a different combination than the code's `runSeeded`
for seed 0. -/
theorem c9_counterexample :
    ¬ ∀ (data : List Student) (seed : Nat),
        runSeeded data seed = runSingleStream data seed := by
  intro h
  have h2 : (runSeeded d9 0).1 = (runSingleStream d9 0).1 :=
    congrArg Prod.fst (h d9 0)
  revert h2
  decide

/-- C9 amended: the per-student combination shuffles all draw from one
continuing stream seeded exactly once and never reseeded mid-batch — the
threaded-stream engine equals the code's indexed formulation in which
student i's shuffle reads the stream advanced by exactly the 6 draws of
each preceding student (a fixed draw sequence), with the final stream
state advanced by 6 times the batch size; the batch-order shuffle is
driven by a separate generator seeded once with the same seed. -/
theorem c9_stream_threading :
    (∀ (caps : Caps) (st : SubState) (r : Nat) (students : List Student),
      procesarT caps st r students =
        ((procesar caps st students (fun i => (shuffleS (lcgIter (6 * i) r) posibles_g).1) 0).1,
         (procesar caps st students (fun i => (shuffleS (lcgIter (6 * i) r) posibles_g).1) 0).2,
         lcgIter (6 * students.length) r)) ∧
    (∀ (data : List Student) (seed : Nat),
      runSeeded data seed =
        ((procesarT (max_students_per_group data) (subgrupos_init data) seed
            (shuffleS seed data).1).1,
         (procesarT (max_students_per_group data) (subgrupos_init data) seed
            (shuffleS seed data).1).2.1)) := by
  have hmain : ∀ (caps : Caps) (st : SubState) (r : Nat) (students : List Student),
      procesarT caps st r students =
        ((procesar caps st students (fun i => (shuffleS (lcgIter (6 * i) r) posibles_g).1) 0).1,
         (procesar caps st students (fun i => (shuffleS (lcgIter (6 * i) r) posibles_g).1) 0).2,
         lcgIter (6 * students.length) r) := by
    intro caps st r students
    induction students generalizing st r with
    | nil => rfl
    | cons s rest ih =>
      have hsp : (shuffleS r posibles_g).2 = lcgIter 6 r := by
        rw [shuffleS_snd]
        rfl
      have hshift := procesar_shift caps rest
        (asignar_subgrupos caps st s (shuffleS r posibles_g).1).1
        (fun i => (shuffleS (lcgIter (6 * i) r) posibles_g).1) 0
      simp only [] at hshift
      show ((asignar_subgrupos caps st s (shuffleS r posibles_g).1).2 ::
          (procesarT caps (asignar_subgrupos caps st s (shuffleS r posibles_g).1).1
            (shuffleS r posibles_g).2 rest).1,
        (procesarT caps (asignar_subgrupos caps st s (shuffleS r posibles_g).1).1
            (shuffleS r posibles_g).2 rest).2) = _
      rw [hsp, ih (asignar_subgrupos caps st s (shuffleS r posibles_g).1).1 (lcgIter 6 r)]
      have horacle : (fun i => (shuffleS (lcgIter (6 * i) (lcgIter 6 r)) posibles_g).1) =
          (fun j => (shuffleS (lcgIter (6 * (j + 1)) r) posibles_g).1) := by
        funext j
        rw [lcgIter_add (6 * j) 6 r]
        have he : 6 * j + 6 = 6 * (j + 1) := by omega
        rw [he]
      rw [horacle, ← hshift]
      have hstream : lcgIter (6 * rest.length) (lcgIter 6 r) =
          lcgIter (6 * (s :: rest).length) r := by
        rw [lcgIter_add]
        have he : 6 * rest.length + 6 = 6 * (s :: rest).length := by
          simp [List.length_cons]
          omega
        rw [he]
      rw [hstream]
      rfl
  refine ⟨hmain, ?_⟩
  intro data seed
  rw [hmain (max_students_per_group data) (subgrupos_init data) seed (shuffleS seed data).1]
  rfl

theorem scanStep_fields (st : SubState) (s : Student) (acc : Row) (k : GKey) :
    (scanStep st s acc k).nombre = acc.nombre ∧
    (scanStep st s acc k).group = acc.group ∧
    (scanStep st s acc k).cnEleccion = acc.cnEleccion ∧
    (scanStep st s acc k).csEleccion = acc.csEleccion ∧
    (scanStep st s acc k).cfEleccion = acc.cfEleccion ∧
    (scanStep st s acc k).cnGrupo =
      (if mCn st s k then gNum k.1 k.2 else acc.cnGrupo) ∧
    (scanStep st s acc k).csGrupo =
      (if mCs st s k then gNum k.1 k.2 else acc.csGrupo) ∧
    (scanStep st s acc k).cfGrupo =
      (if mCf st s k then gNum k.1 k.2 else acc.cfGrupo) := by
  unfold scanStep mCn mCs mCf
  by_cases hm : s.nombre ∈ (st.mem k.1 k.2).map Prod.fst
  · rw [if_pos hm]
    by_cases hcn : startsWith s.cn (keyStr k.1 k.2)
    · simp [hm, hcn]
    · simp only [Bool.not_eq_true] at hcn
      by_cases hcs : startsWith s.cs (keyStr k.1 k.2)
      · simp [hm, hcn, hcs]
      · simp only [Bool.not_eq_true] at hcs
        by_cases hcf : startsWith s.cf (keyStr k.1 k.2)
        · simp [hm, hcn, hcs, hcf]
        · simp only [Bool.not_eq_true] at hcf
          simp [hm, hcn, hcs, hcf]
  · rw [if_neg hm]
    simp [hm]

theorem lastSetFrom_default (p : GKey → Bool) :
    ∀ (keys : List GKey) (a : Option GKey),
      lastSetFrom p a keys = (lastSetFrom p none keys).elim a some := by
  intro keys
  induction keys with
  | nil => intro a; rfl
  | cons k ks ih =>
    intro a
    show lastSetFrom p (if p k then some k else a) ks = _
    rw [ih]
    have h2 : lastSetFrom p none (k :: ks) =
        lastSetFrom p (if p k then some k else none) ks := rfl
    rw [h2, ih (if p k then some k else none)]
    cases hls : lastSetFrom p none ks with
    | some j => rfl
    | none =>
      by_cases hp : p k
      · simp [hp]
      · simp [hp]

theorem elim_default_step (p : GKey → Bool) (ks : List GKey) (k : GKey) (d : String)
    (f : GKey → String) :
    (lastSetFrom p none (k :: ks)).elim d f =
      (lastSetFrom p none ks).elim (if p k then f k else d) f := by
  show (lastSetFrom p (if p k then some k else none) ks).elim d f = _
  rw [lastSetFrom_default p ks]
  cases lastSetFrom p none ks with
  | some j => rfl
  | none =>
    by_cases hp : p k
    · simp [hp]
    · simp [hp]

theorem rowFold_char (st : SubState) (s : Student) :
    ∀ (keys : List GKey) (acc : Row),
      (keys.foldl (scanStep st s) acc).nombre = acc.nombre ∧
      (keys.foldl (scanStep st s) acc).group = acc.group ∧
      (keys.foldl (scanStep st s) acc).cnEleccion = acc.cnEleccion ∧
      (keys.foldl (scanStep st s) acc).csEleccion = acc.csEleccion ∧
      (keys.foldl (scanStep st s) acc).cfEleccion = acc.cfEleccion ∧
      (keys.foldl (scanStep st s) acc).cnGrupo =
        (lastSetFrom (mCn st s) none keys).elim acc.cnGrupo (fun k => gNum k.1 k.2) ∧
      (keys.foldl (scanStep st s) acc).csGrupo =
        (lastSetFrom (mCs st s) none keys).elim acc.csGrupo (fun k => gNum k.1 k.2) ∧
      (keys.foldl (scanStep st s) acc).cfGrupo =
        (lastSetFrom (mCf st s) none keys).elim acc.cfGrupo (fun k => gNum k.1 k.2) := by
  intro keys
  induction keys with
  | nil => intro acc; exact ⟨rfl, rfl, rfl, rfl, rfl, rfl, rfl, rfl⟩
  | cons k ks ih =>
    intro acc
    obtain ⟨f1, f2, f3, f4, f5, f6, f7, f8⟩ := ih (scanStep st s acc k)
    obtain ⟨g1, g2, g3, g4, g5, g6, g7, g8⟩ := scanStep_fields st s acc k
    have hfold : (k :: ks).foldl (scanStep st s) acc =
        ks.foldl (scanStep st s) (scanStep st s acc k) := rfl
    refine ⟨by rw [hfold, f1, g1], by rw [hfold, f2, g2], by rw [hfold, f3, g3],
      by rw [hfold, f4, g4], by rw [hfold, f5, g5], ?_, ?_, ?_⟩
    · rw [hfold, f6, g6, elim_default_step]
    · rw [hfold, f7, g7, elim_default_step]
    · rw [hfold, f8, g8, elim_default_step]

theorem lastSetFrom_none (p : GKey → Bool) :
    ∀ (keys : List GKey) (a : Option GKey), (∀ k ∈ keys, p k = false) →
      lastSetFrom p a keys = a := by
  intro keys
  induction keys with
  | nil => intro a _; rfl
  | cons k ks ih =>
    intro a hall
    show lastSetFrom p (if p k then some k else a) ks = a
    rw [if_neg (by simp [hall k (List.mem_cons_self _ _)])]
    exact ih a fun j hj => hall j (List.mem_cons_of_mem _ hj)

theorem lastSetFrom_unique (p : GKey → Bool) (k0 : GKey) :
    ∀ (keys : List GKey) (a : Option GKey),
      (∀ k ∈ keys, p k = true → k = k0) →
      ((k0 ∈ keys ∧ p k0 = true) ∨ a = some k0) →
      lastSetFrom p a keys = some k0 := by
  intro keys
  induction keys with
  | nil =>
    intro a _ hcase
    rcases hcase with ⟨hmem, _⟩ | ha
    · simp at hmem
    · simpa using ha
  | cons k ks ih =>
    intro a huniq hcase
    show lastSetFrom p (if p k then some k else a) ks = some k0
    by_cases hp : p k
    · have hk : k = k0 := huniq k (List.mem_cons_self _ _) hp
      rw [if_pos hp, hk]
      exact ih (some k0) (fun j hj hpj => huniq j (List.mem_cons_of_mem _ hj) hpj)
        (Or.inr rfl)
    · rw [if_neg hp]
      rcases hcase with ⟨hmem, hpk0⟩ | ha
      · rcases List.mem_cons.1 hmem with rfl | hmem2
        · exact absurd hpk0 (by simpa using hp)
        · exact ih a (fun j hj hpj => huniq j (List.mem_cons_of_mem _ hj) hpj)
            (Or.inl ⟨hmem2, hpk0⟩)
      · exact ih a (fun j hj hpj => huniq j (List.mem_cons_of_mem _ hj) hpj) (Or.inr ha)

theorem c8_member_iff (data σ : List Student) (sh : Nat → List Combo)
    (rs : List (Option Combo)) (st2 : SubState)
    (hnodup : (data.map fun s => s.nombre).Nodup)
    (hperm : σ.Perm data)
    (hrun : procesar (max_students_per_group data) (subgrupos_init data) σ sh 0 = (rs, st2)) :
    ∀ (s : Student) (o : Option Combo),
      (s, o) ∈ outcomesOf (max_students_per_group data) (subgrupos_init data) σ sh 0 →
      ∀ (c : String) (g : Nat),
        (s.nombre ∈ (st2.mem c g).map Prod.fst ↔
          ∃ cb, o = some cb ∧ (c, g) ∈ seatKeys s cb) := by
  intro s o hso c g
  have hmem2 : st2.mem c g =
      addedTo c g (outcomesOf (max_students_per_group data) (subgrupos_init data) σ sh 0) := by
    have := procesar_mem (max_students_per_group data) σ (subgrupos_init data) sh 0 c g
    rw [hrun] at this
    simpa using this
  have houtn : ((outcomesOf (max_students_per_group data) (subgrupos_init data) σ sh 0).map
      fun p => p.1.nombre).Nodup := by
    have hfst : ((outcomesOf (max_students_per_group data) (subgrupos_init data) σ sh 0).map
        fun p => p.1.nombre) = σ.map fun s => s.nombre := by
      rw [show (fun p : Student × Option Combo => p.1.nombre) =
        (fun s : Student => s.nombre) ∘ Prod.fst from rfl]
      rw [← List.map_map, outcomes_fst]
    rw [hfst]
    exact ((hperm.map fun s => s.nombre).nodup_iff).2 hnodup
  rw [hmem2, mem_addedTo_names]
  constructor
  · rintro ⟨t, cb, htmem, htn, hk⟩
    have heq : (t, some cb) = (s, o) :=
      List.inj_on_of_nodup_map houtn htmem hso htn
    obtain ⟨h1, h2⟩ := Prod.ext_iff.1 heq
    simp only at h1 h2
    subst h1
    exact ⟨cb, h2.symm, hk⟩
  · rintro ⟨cb, rfl, hk⟩
    exact ⟨s, cb, hso, rfl, hk⟩

/-- C8 amended: the summary view has one row per original student, in
order, including unseated ones, carrying the student's name, group and
three choice values; and provided student names are distinct, each
student's three choices are pairwise distinct, a recorded choice is a
string-prefix of a sub-group key string exactly for that choice's own
keys, and the `-G`-split of every key string yields the slot digits
(which holds when choice values contain no dash and no `-G`), the scan
reports, for every seated student, exactly the three slot numbers of the
combination the engine chose for them, and empty fields for every
unseated student. -/
theorem c8_summary_reverse_lookup (data σ : List Student) (sh : Nat → List Combo)
    (rs : List (Option Combo)) (st2 : SubState)
    (hnodup : (data.map fun s => s.nombre).Nodup)
    (hperm : σ.Perm data)
    (hsh : ∀ j, (sh j).Perm posibles_g)
    (hdistinct : ∀ s ∈ data, s.cn ≠ s.cs ∧ s.cn ≠ s.cf ∧ s.cs ≠ s.cf)
    (hpre : ∀ s ∈ data, ∀ c ∈ cursos data, ∀ g ∈ [1, 2, 3],
      (startsWith s.cn (keyStr c g) = true ↔ c = s.cn) ∧
      (startsWith s.cs (keyStr c g) = true ↔ c = s.cs) ∧
      (startsWith s.cf (keyStr c g) = true ↔ c = s.cf))
    (hgnum : ∀ c ∈ cursos data, ∀ g ∈ [1, 2, 3], gNum c g = toString g)
    (hrun : procesar (max_students_per_group data) (subgrupos_init data) σ sh 0 = (rs, st2)) :
    ((summaryView data st2).map fun r => r.nombre) = (data.map fun s => s.nombre) ∧
    (summaryView data st2).length = data.length ∧
    (∀ s ∈ data,
      (rowFor st2 s).nombre = s.nombre ∧ (rowFor st2 s).group = s.group ∧
      (rowFor st2 s).cnEleccion = s.cn ∧ (rowFor st2 s).csEleccion = s.cs ∧
      (rowFor st2 s).cfEleccion = s.cf) ∧
    ∀ p ∈ outcomesOf (max_students_per_group data) (subgrupos_init data) σ sh 0,
      (match p.2 with
       | some cb =>
           (rowFor st2 p.1).cnGrupo = toString cb.1 ∧
           (rowFor st2 p.1).csGrupo = toString cb.2.1 ∧
           (rowFor st2 p.1).cfGrupo = toString cb.2.2
       | none =>
           (rowFor st2 p.1).cnGrupo = "" ∧ (rowFor st2 p.1).csGrupo = "" ∧
           (rowFor st2 p.1).cfGrupo = "") := by
  have hcrs : st2.courses = cursos data := by
    have := procesar_courses (max_students_per_group data) σ (subgrupos_init data) sh 0
    rw [hrun] at this
    exact this
  have hrowchar : ∀ t : Student,
      (rowFor st2 t).nombre = t.nombre ∧
      (rowFor st2 t).group = t.group ∧
      (rowFor st2 t).cnEleccion = t.cn ∧
      (rowFor st2 t).csEleccion = t.cs ∧
      (rowFor st2 t).cfEleccion = t.cf ∧
      (rowFor st2 t).cnGrupo =
        (lastSetFrom (mCn st2 t) none (keyList st2.courses)).elim ""
          (fun k => gNum k.1 k.2) ∧
      (rowFor st2 t).csGrupo =
        (lastSetFrom (mCs st2 t) none (keyList st2.courses)).elim ""
          (fun k => gNum k.1 k.2) ∧
      (rowFor st2 t).cfGrupo =
        (lastSetFrom (mCf st2 t) none (keyList st2.courses)).elim ""
          (fun k => gNum k.1 k.2) :=
    fun t => rowFold_char st2 t (keyList st2.courses) (emptyRow t)
  refine ⟨?_, by simp [summaryView], ?_, ?_⟩
  · unfold summaryView
    rw [List.map_map]
    apply List.map_congr_left
    intro s _
    exact (hrowchar s).1
  · intro s _
    exact ⟨(hrowchar s).1, (hrowchar s).2.1, (hrowchar s).2.2.1,
      (hrowchar s).2.2.2.1, (hrowchar s).2.2.2.2.1⟩
  · intro p hp
    obtain ⟨s, o⟩ := p
    have hsσ : s ∈ σ := by
      have := outcomes_fst (max_students_per_group data) σ (subgrupos_init data) sh 0
      rw [← this]
      exact List.mem_map.2 ⟨(s, o), hp, rfl⟩
    have hsdata : s ∈ data := hperm.subset hsσ
    have hd := hdistinct s hsdata
    have hmemiff := c8_member_iff data σ sh rs st2 hnodup hperm hrun s o hp
    cases o with
    | none =>
      have hfalse : ∀ k ∈ keyList st2.courses, mCn st2 s k = false := by
        intro k _
        unfold mCn
        have : s.nombre ∉ (st2.mem k.1 k.2).map Prod.fst := by
          rw [hmemiff k.1 k.2]
          rintro ⟨cb, hcb, _⟩
          exact absurd hcb (by simp)
        simp [this]
      have hfalse2 : ∀ k ∈ keyList st2.courses, mCs st2 s k = false := by
        intro k _
        unfold mCs
        have : s.nombre ∉ (st2.mem k.1 k.2).map Prod.fst := by
          rw [hmemiff k.1 k.2]
          rintro ⟨cb, hcb, _⟩
          exact absurd hcb (by simp)
        simp [this]
      have hfalse3 : ∀ k ∈ keyList st2.courses, mCf st2 s k = false := by
        intro k _
        unfold mCf
        have : s.nombre ∉ (st2.mem k.1 k.2).map Prod.fst := by
          rw [hmemiff k.1 k.2]
          rintro ⟨cb, hcb, _⟩
          exact absurd hcb (by simp)
        simp [this]
      show (rowFor st2 s).cnGrupo = "" ∧ (rowFor st2 s).csGrupo = "" ∧
        (rowFor st2 s).cfGrupo = ""
      refine ⟨?_, ?_, ?_⟩
      · rw [(hrowchar s).2.2.2.2.2.1,
          lastSetFrom_none (mCn st2 s) (keyList st2.courses) none hfalse]
        rfl
      · rw [(hrowchar s).2.2.2.2.2.2.1,
          lastSetFrom_none (mCs st2 s) (keyList st2.courses) none hfalse2]
        rfl
      · rw [(hrowchar s).2.2.2.2.2.2.2,
          lastSetFrom_none (mCf st2 s) (keyList st2.courses) none hfalse3]
        rfl
    | some cb =>
      obtain ⟨x, y, z⟩ := cb
      obtain ⟨hcb, hcur⟩ := outcomes_some (max_students_per_group data) σ
        (subgrupos_init data) sh 0 hsh (s, some (x, y, z)) hp (x, y, z) rfl
      have hcur2 : s.cn ∈ cursos data ∧ s.cs ∈ cursos data ∧ s.cf ∈ cursos data := hcur
      have hg : (x = 1 ∨ x = 2 ∨ x = 3) ∧ (y = 1 ∨ y = 2 ∨ y = 3) ∧
          (z = 1 ∨ z = 2 ∨ z = 3) := by
        have e : posibles_g = [(1,2,3), (1,3,2), (2,1,3), (2,3,1), (3,1,2), (3,2,1)] := by
          decide
        rw [e] at hcb
        fin_cases hcb <;> simp
      have hgmem : x ∈ [1, 2, 3] ∧ y ∈ [1, 2, 3] ∧ z ∈ [1, 2, 3] := by
        refine ⟨?_, ?_, ?_⟩
        · rcases hg.1 with rfl | rfl | rfl <;> simp
        · rcases hg.2.1 with rfl | rfl | rfl <;> simp
        · rcases hg.2.2 with rfl | rfl | rfl <;> simp
      have hmemkey : ∀ (c : String) (g : Nat),
          s.nombre ∈ (st2.mem c g).map Prod.fst ↔ (c, g) ∈ seatKeys s (x, y, z) := by
        intro c g
        rw [hmemiff c g]
        constructor
        · rintro ⟨cb2, hcb2, hk⟩
          have : cb2 = (x, y, z) := by
            injection hcb2.symm
          rw [← this]
          exact hk
        · intro hk
          exact ⟨(x, y, z), rfl, hk⟩
      have hpre2 := hpre s hsdata
      -- characterize each predicate on keyList
      have hkeyfacts : ∀ k ∈ keyList st2.courses, k.1 ∈ cursos data ∧ k.2 ∈ [1, 2, 3] := by
        intro k hk
        obtain ⟨c, g⟩ := k
        rw [hcrs] at hk
        obtain ⟨hc, hg3⟩ := (mem_keyList c g (cursos data)).1 hk
        refine ⟨hc, ?_⟩
        rcases hg3 with rfl | rfl | rfl <;> simp
      have hmCn : ∀ k ∈ keyList st2.courses, (mCn st2 s k = true ↔ k = (s.cn, x)) := by
        intro k hk
        obtain ⟨c, g⟩ := k
        obtain ⟨hc, hg3⟩ := hkeyfacts (c, g) hk
        unfold mCn
        rw [Bool.and_eq_true, decide_eq_true_eq, hmemkey c g]
        constructor
        · rintro ⟨hkmem, hsw⟩
          have hccn : c = s.cn := ((hpre2 c hc g hg3).1).1 hsw
          have hkm : (c, g) ∈ [(s.cn, x), (s.cs, y), (s.cf, z)] := hkmem
          simp only [List.mem_cons, List.mem_singleton, List.not_mem_nil, or_false] at hkm
          rcases hkm with he | he | he
          · exact he
          · obtain ⟨h1, _⟩ := Prod.ext_iff.1 he
            simp only at h1
            exact absurd (hccn.symm.trans h1) hd.1
          · obtain ⟨h1, _⟩ := Prod.ext_iff.1 he
            simp only at h1
            exact absurd (hccn.symm.trans h1) hd.2.1
        · intro hke
          obtain ⟨h1, h2⟩ := Prod.ext_iff.1 hke
          simp only at h1 h2
          subst h1
          rw [h2]
          refine ⟨List.mem_cons_self _ _, ?_⟩
          exact ((hpre2 s.cn hcur2.1 x hgmem.1).1).2 rfl
      have hmCs : ∀ k ∈ keyList st2.courses, (mCs st2 s k = true ↔ k = (s.cs, y)) := by
        intro k hk
        obtain ⟨c, g⟩ := k
        obtain ⟨hc, hg3⟩ := hkeyfacts (c, g) hk
        unfold mCs
        rw [Bool.and_eq_true, Bool.and_eq_true, decide_eq_true_eq, hmemkey c g]
        constructor
        · rintro ⟨⟨hkmem, hswn⟩, hsw⟩
          have hccs : c = s.cs := ((hpre2 c hc g hg3).2.1).1 hsw
          have hkm : (c, g) ∈ [(s.cn, x), (s.cs, y), (s.cf, z)] := hkmem
          simp only [List.mem_cons, List.mem_singleton, List.not_mem_nil, or_false] at hkm
          rcases hkm with he | he | he
          · obtain ⟨h1, _⟩ := Prod.ext_iff.1 he
            simp only at h1
            exact absurd (h1.symm.trans hccs) hd.1
          · exact he
          · obtain ⟨h1, _⟩ := Prod.ext_iff.1 he
            simp only at h1
            exact absurd (hccs.symm.trans h1) hd.2.2
        · intro hke
          obtain ⟨h1, h2⟩ := Prod.ext_iff.1 hke
          simp only at h1 h2
          subst h1
          rw [h2]
          refine ⟨⟨List.mem_cons_of_mem _ (List.mem_cons_self _ _), ?_⟩, ?_⟩
          · rw [Bool.not_eq_true', ← Bool.not_eq_true]
            intro hsw
            exact hd.1 (((hpre2 s.cs hcur2.2.1 y hgmem.2.1).1).1 hsw).symm
          · exact ((hpre2 s.cs hcur2.2.1 y hgmem.2.1).2.1).2 rfl
      have hmCf : ∀ k ∈ keyList st2.courses, (mCf st2 s k = true ↔ k = (s.cf, z)) := by
        intro k hk
        obtain ⟨c, g⟩ := k
        obtain ⟨hc, hg3⟩ := hkeyfacts (c, g) hk
        unfold mCf
        rw [Bool.and_eq_true, Bool.and_eq_true, Bool.and_eq_true, decide_eq_true_eq,
          hmemkey c g]
        constructor
        · rintro ⟨⟨⟨hkmem, hswn⟩, hsws⟩, hsw⟩
          have hccf : c = s.cf := ((hpre2 c hc g hg3).2.2).1 hsw
          have hkm : (c, g) ∈ [(s.cn, x), (s.cs, y), (s.cf, z)] := hkmem
          simp only [List.mem_cons, List.mem_singleton, List.not_mem_nil, or_false] at hkm
          rcases hkm with he | he | he
          · obtain ⟨h1, _⟩ := Prod.ext_iff.1 he
            simp only at h1
            exact absurd (h1.symm.trans hccf) hd.2.1
          · obtain ⟨h1, _⟩ := Prod.ext_iff.1 he
            simp only at h1
            exact absurd (h1.symm.trans hccf) hd.2.2
          · exact he
        · intro hke
          obtain ⟨h1, h2⟩ := Prod.ext_iff.1 hke
          simp only at h1 h2
          subst h1
          rw [h2]
          refine ⟨⟨⟨List.mem_cons_of_mem _ (List.mem_cons_of_mem _ (List.mem_cons_self _ _)), ?_⟩, ?_⟩, ?_⟩
          · rw [Bool.not_eq_true', ← Bool.not_eq_true]
            intro hsw
            exact hd.2.1 (((hpre2 s.cf hcur2.2.2 z hgmem.2.2).1).1 hsw).symm
          · rw [Bool.not_eq_true', ← Bool.not_eq_true]
            intro hsw
            exact hd.2.2 (((hpre2 s.cf hcur2.2.2 z hgmem.2.2).2.1).1 hsw).symm
          · exact ((hpre2 s.cf hcur2.2.2 z hgmem.2.2).2.2).2 rfl
      have hkcn : (s.cn, x) ∈ keyList st2.courses := by
        rw [hcrs]
        exact (mem_keyList _ _ _).2 ⟨hcur2.1, hg.1⟩
      have hkcs : (s.cs, y) ∈ keyList st2.courses := by
        rw [hcrs]
        exact (mem_keyList _ _ _).2 ⟨hcur2.2.1, hg.2.1⟩
      have hkcf : (s.cf, z) ∈ keyList st2.courses := by
        rw [hcrs]
        exact (mem_keyList _ _ _).2 ⟨hcur2.2.2, hg.2.2⟩
      have hlcn : lastSetFrom (mCn st2 s) none (keyList st2.courses) = some (s.cn, x) :=
        lastSetFrom_unique (mCn st2 s) (s.cn, x) (keyList st2.courses) none
          (fun k hk hpk => (hmCn k hk).1 hpk)
          (Or.inl ⟨hkcn, (hmCn (s.cn, x) hkcn).2 rfl⟩)
      have hlcs : lastSetFrom (mCs st2 s) none (keyList st2.courses) = some (s.cs, y) :=
        lastSetFrom_unique (mCs st2 s) (s.cs, y) (keyList st2.courses) none
          (fun k hk hpk => (hmCs k hk).1 hpk)
          (Or.inl ⟨hkcs, (hmCs (s.cs, y) hkcs).2 rfl⟩)
      have hlcf : lastSetFrom (mCf st2 s) none (keyList st2.courses) = some (s.cf, z) :=
        lastSetFrom_unique (mCf st2 s) (s.cf, z) (keyList st2.courses) none
          (fun k hk hpk => (hmCf k hk).1 hpk)
          (Or.inl ⟨hkcf, (hmCf (s.cf, z) hkcf).2 rfl⟩)
      show (rowFor st2 s).cnGrupo = toString x ∧ (rowFor st2 s).csGrupo = toString y ∧
        (rowFor st2 s).cfGrupo = toString z
      refine ⟨?_, ?_, ?_⟩
      · rw [(hrowchar s).2.2.2.2.2.1, hlcn]
        exact hgnum s.cn hcur2.1 x hgmem.1
      · rw [(hrowchar s).2.2.2.2.2.2.1, hlcs]
        exact hgnum s.cs hcur2.2.1 y hgmem.2.1
      · rw [(hrowchar s).2.2.2.2.2.2.2, hlcf]
        exact hgnum s.cf hcur2.2.2 z hgmem.2.2

/-- C8 counterexample: a non-empty summary field need not be the slot
number of the sub-group the student was seated in for that track's
choice.  The single student of `data8` (choices `CN1`, `CN11`, `CF1`) is
seated with combination (1, 2, 3), but because `CN1` is a string-prefix
of the key `CN11-G2`, the scan overwrites the CN field with slot 2 — the
summary reports CN slot 2 although the student sits in `CN1-G1`. -/
theorem c8_counterexample :
    ¬ (∀ (data σ : List Student) (sh : Nat → List Combo) (rs : List (Option Combo))
        (st2 : SubState),
        σ.Perm data → (∀ j, (sh j).Perm posibles_g) →
        procesar (max_students_per_group data) (subgrupos_init data) σ sh 0 = (rs, st2) →
        ∀ p ∈ outcomesOf (max_students_per_group data) (subgrupos_init data) σ sh 0,
          ((rowFor st2 p.1).cnGrupo ≠ "" →
            ∃ cb, p.2 = some cb ∧ (rowFor st2 p.1).cnGrupo = toString cb.1) ∧
          ((rowFor st2 p.1).csGrupo ≠ "" →
            ∃ cb, p.2 = some cb ∧ (rowFor st2 p.1).csGrupo = toString cb.2.1) ∧
          ((rowFor st2 p.1).cfGrupo ≠ "" →
            ∃ cb, p.2 = some cb ∧ (rowFor st2 p.1).cfGrupo = toString cb.2.2)) := by
  intro hclaim
  have h := (hclaim data8 data8 shId
    (procesar (max_students_per_group data8) (subgrupos_init data8) data8 shId 0).1
    (procesar (max_students_per_group data8) (subgrupos_init data8) data8 shId 0).2
    (List.Perm.refl _) (fun _ => List.Perm.refl _) rfl
    (s8, some (1, 2, 3)) (by decide)).1
  obtain ⟨cb, hcb, heq⟩ := h (by decide)
  have hcbe : cb = (1, 2, 3) := by
    have := hcb.symm
    injection this
  rw [hcbe] at heq
  revert heq
  decide

/-- C8 witness: the summary correctness facts evaluated on a concrete
clean two-student batch (distinct names, prefix-free course strings). -/
theorem c8_summary_reverse_lookup_witness :
    ((summaryView dataW
        (procesar (max_students_per_group dataW) (subgrupos_init dataW) dataW shId 0).2).map
      fun r => r.nombre) = (dataW.map fun s => s.nombre) ∧
    (summaryView dataW
      (procesar (max_students_per_group dataW) (subgrupos_init dataW) dataW shId 0).2).length =
      dataW.length ∧
    (∀ s ∈ dataW,
      (rowFor (procesar (max_students_per_group dataW) (subgrupos_init dataW) dataW shId 0).2
          s).nombre = s.nombre ∧
      (rowFor (procesar (max_students_per_group dataW) (subgrupos_init dataW) dataW shId 0).2
          s).group = s.group ∧
      (rowFor (procesar (max_students_per_group dataW) (subgrupos_init dataW) dataW shId 0).2
          s).cnEleccion = s.cn ∧
      (rowFor (procesar (max_students_per_group dataW) (subgrupos_init dataW) dataW shId 0).2
          s).csEleccion = s.cs ∧
      (rowFor (procesar (max_students_per_group dataW) (subgrupos_init dataW) dataW shId 0).2
          s).cfEleccion = s.cf) ∧
    ∀ p ∈ outcomesOf (max_students_per_group dataW) (subgrupos_init dataW) dataW shId 0,
      (match p.2 with
       | some cb =>
           (rowFor (procesar (max_students_per_group dataW) (subgrupos_init dataW) dataW
               shId 0).2 p.1).cnGrupo = toString cb.1 ∧
           (rowFor (procesar (max_students_per_group dataW) (subgrupos_init dataW) dataW
               shId 0).2 p.1).csGrupo = toString cb.2.1 ∧
           (rowFor (procesar (max_students_per_group dataW) (subgrupos_init dataW) dataW
               shId 0).2 p.1).cfGrupo = toString cb.2.2
       | none =>
           (rowFor (procesar (max_students_per_group dataW) (subgrupos_init dataW) dataW
               shId 0).2 p.1).cnGrupo = "" ∧
           (rowFor (procesar (max_students_per_group dataW) (subgrupos_init dataW) dataW
               shId 0).2 p.1).csGrupo = "" ∧
           (rowFor (procesar (max_students_per_group dataW) (subgrupos_init dataW) dataW
               shId 0).2 p.1).cfGrupo = "") :=
  c8_summary_reverse_lookup dataW dataW shId
    (procesar (max_students_per_group dataW) (subgrupos_init dataW) dataW shId 0).1
    (procesar (max_students_per_group dataW) (subgrupos_init dataW) dataW shId 0).2
    (by decide) (List.Perm.refl _) (fun _ => List.Perm.refl _)
    (by decide) (by decide) (by decide) rfl
